import Mathlib

/-!
# WhereSpace retrieval pipeline — verification development

Shallow embedding of the core retrieval/ingestion components of the
WhereSpace repository (chunking, embedding client, batch embeddings,
query cache, deduplication, ingestion loop), with theorems settling the
spec claims.

Modelling conventions:
* Python strings are `List Char`; floats are `ℚ`; Python `None` is `Option.none`.
* `hashlib.md5` digests are modelled by the hashed payload itself
  (md5 is treated as injective, so a digest is identified with its input).
* Network endpoints and the database are oracles passed in explicitly.
-/

namespace WhereSpace

/-! ## Deduplication (`optimized_rag_query.deduplicate_chunks`) -/

/-- A retrieved chunk dict, restricted to the keys `deduplicate_chunks`
reads: `file_name` and `content`. -/
structure DChunk where
  file_name : String
  content : String
deriving DecidableEq, Repr

/-- First pass of `deduplicate_chunks`: drop chunks whose content was
already seen (`seen_hashes` / `unique_chunks` loop; the md5 digest is
modelled by the content itself). -/
def dedupPass : List String → List DChunk → List DChunk
  | _, [] => []
  | seen, c :: rest =>
    if c.content ∈ seen then dedupPass seen rest
    else c :: dedupPass (c.content :: seen) rest

/-- Second pass of `deduplicate_chunks` (`seen_files` / `diverse_chunks`
loop).  `n` is `len(unique_chunks)`; `k` is the current length of
`diverse_chunks`; the Python float test `len(diverse_chunks) <
len(unique_chunks) * 0.5` is exactly `2 * k < n`. -/
def divPass (n : ℕ) : List String → ℕ → List DChunk → List DChunk
  | _, _, [] => []
  | seen, k, c :: rest =>
    if c.file_name ∈ seen then
      if 2 * k < n then c :: divPass n seen (k + 1) rest
      else divPass n seen k rest
    else c :: divPass n (c.file_name :: seen) (k + 1) rest

/-- `optimized_rag_query.deduplicate_chunks` (the `similarity_threshold`
parameter is never read by the function body). -/
def deduplicate_chunks (chunks : List DChunk) : List DChunk :=
  if chunks.length ≤ 1 then chunks
  else
    let unique_chunks := dedupPass [] chunks
    divPass unique_chunks.length [] 0 unique_chunks

/-! ## Query cache (`optimized_rag_query.QueryCache`) -/

/-- A row returned by the similarity-search SQL query:
`(file_name, file_type, content_preview, chunk_content, similarity)`. -/
structure SRow where
  file_name : String
  file_type : String
  preview : Option String
  content : String
  similarity : ℚ
deriving DecidableEq, Repr

/-- The dict built for each row in `search_similar_chunks_optimized`
(`preview` truncated to 100 chars, `''` when NULL). -/
structure SRes where
  file_name : String
  file_type : String
  preview : String
  content : String
  similarity : ℚ
deriving DecidableEq, Repr

def rowToRes (r : SRow) : SRes :=
  { file_name := r.file_name
    file_type := r.file_type
    preview := match r.preview with
      | some p => p.take 100
      | none => ""
    content := r.content
    similarity := r.similarity }

/-- Cache key: md5 of `f"{query_embedding[:10]}_{top_k}"`, modelled by
the pair (first 10 components, top_k). -/
def mkKey (query_embedding : List ℚ) (top_k : ℕ) : List ℚ × ℕ :=
  (query_embedding.take 10, top_k)

/-- A cache entry: the result list plus its insertion timestamp. -/
structure CEntry where
  results : List SRes
  timestamp : ℚ
deriving DecidableEq, Repr

/-- `QueryCache` state: the dict (association list in insertion order),
configuration and hit/miss statistics. -/
structure QueryCache where
  cache : List ((List ℚ × ℕ) × CEntry)
  max_size : ℕ
  ttl : ℚ
  hits : ℕ
  misses : ℕ
deriving DecidableEq, Repr

/-- Dict lookup (`key in self.cache` / `self.cache[key]`). -/
def cacheLookup (key : List ℚ × ℕ) (l : List ((List ℚ × ℕ) × CEntry)) :
    Option CEntry :=
  match l.find? (fun e => e.1 = key) with
  | some e => some e.2
  | none => none

/-- Dict deletion (`del self.cache[key]`; dict keys are unique, so
removing every binding of `key` is the same operation). -/
def cacheErase (key : List ℚ × ℕ) (l : List ((List ℚ × ℕ) × CEntry)) :
    List ((List ℚ × ℕ) × CEntry) :=
  l.filter (fun e => ¬ e.1 = key)

/-- `QueryCache.get` at wall-clock time `now`: returns the cached
results (hit) or `none` (miss), together with the updated cache state.
An entry whose age reaches the TTL is deleted and counted as a miss. -/
def QueryCache.get (qc : QueryCache) (query_embedding : List ℚ)
    (top_k : ℕ) (now : ℚ) : Option (List SRes) × QueryCache :=
  let key := mkKey query_embedding top_k
  match cacheLookup key qc.cache with
  | some entry =>
    if now - entry.timestamp < qc.ttl then
      (some entry.results, { qc with hits := qc.hits + 1 })
    else
      (none, { qc with cache := cacheErase key qc.cache,
                       misses := qc.misses + 1 })
  | none => (none, { qc with misses := qc.misses + 1 })

/-- Oldest-entry selection for eviction: `min(self.cache.keys(), key=λk.
timestamp)`; `min` keeps the earliest-iterated key on ties, i.e. the
first binding in insertion order with minimal timestamp. -/
def oldestKey : List ((List ℚ × ℕ) × CEntry) → Option (List ℚ × ℕ)
  | [] => none
  | e :: rest =>
    match oldestKey rest with
    | none => some e.1
    | some k =>
      match cacheLookup k rest with
      | some entry =>
        if entry.timestamp < e.2.timestamp then some k else some e.1
      | none => some e.1

/-- Dict insertion: replace in place if the key is present, else append. -/
def cacheInsert (key : List ℚ × ℕ) (v : CEntry)
    (l : List ((List ℚ × ℕ) × CEntry)) : List ((List ℚ × ℕ) × CEntry) :=
  match l with
  | [] => [(key, v)]
  | e :: rest =>
    if e.1 = key then (key, v) :: rest else e :: cacheInsert key v rest

/-- `QueryCache.set` at wall-clock time `now` (evicts the oldest entry
first when the cache is full). -/
def QueryCache.set (qc : QueryCache) (query_embedding : List ℚ)
    (top_k : ℕ) (results : List SRes) (now : ℚ) : QueryCache :=
  let key := mkKey query_embedding top_k
  let cache1 :=
    if qc.max_size ≤ qc.cache.length then
      match oldestKey qc.cache with
      | some k => cacheErase k qc.cache
      | none => qc.cache
    else qc.cache
  { qc with cache := cacheInsert key { results := results, timestamp := now } cache1 }

/-- `search_similar_chunks_optimized`.  The database is an oracle:
`Except.ok rows` is a successful query, `Except.error ()` any exception
raised while querying (which the function turns into `[]`).  Returns
the result list and the cache state afterwards. -/
def search_similar_chunks_optimized (qc : QueryCache)
    (query_embedding : List ℚ) (top_k : ℕ) (use_cache : Bool)
    (db : Except Unit (List SRow)) (now : ℚ) : List SRes × QueryCache :=
  let checked :=
    if use_cache then qc.get query_embedding top_k now else (none, qc)
  match checked with
  | (some cached, qc1) => (cached, qc1)
  | (none, qc1) =>
    match db with
    | Except.error _ => ([], qc1)
    | Except.ok rows =>
      let results := rows.map rowToRes
      if use_cache ∧ results ≠ [] then
        (results, qc1.set query_embedding top_k results now)
      else (results, qc1)

/-! ## Single-text embedding clients

`WhereSpace.generate_embedding` and
`batch_embeddings.BatchEmbeddingGenerator._generate_single` are retry
loops around one HTTP request per attempt.  The endpoint is an oracle
`resp : ℕ → EmbedResp` giving the outcome of attempt number `a`
(0-based).  Both functions return the produced vector (or `none`)
together with the number of attempts that were actually made. -/

/-- Outcome of one HTTP attempt against the embedding endpoint.
`ok emb` is a parsed JSON response whose `embedding` field is `emb`
(`[]` models both a missing key and an empty list — both falsy in
Python).  `malformedJSON` is `response.json()` raising
`requests.exceptions.JSONDecodeError`; `otherError` covers
`raise_for_status` HTTP errors and any other exception. -/
inductive EmbedResp where
  | timeout
  | connError
  | malformedJSON
  | otherError
  | ok (emb : List ℚ)
deriving DecidableEq, Repr

/-- Expected embedding dimension (`OLLAMA_EMBED_DIMENSION`). -/
def OLLAMA_EMBED_DIMENSION : ℕ := 768

/-- Retry loop of `WhereSpace.generate_embedding` (`max_retries = 3`).
`a` is the current attempt index, `fuel` the remaining loop iterations.
A dimension mismatch only logs a warning: the vector is returned anyway.
`requests.exceptions.JSONDecodeError` has its own handler that returns
`None` at once, with no retry. -/
def genEmbedLoop (resp : ℕ → EmbedResp) : ℕ → ℕ → Option (List ℚ) × ℕ
  | a, 0 => (none, a)
  | a, fuel + 1 =>
    match resp a with
    | EmbedResp.ok emb =>
      if emb = [] then
        if a < 2 then genEmbedLoop resp (a + 1) fuel else (none, a + 1)
      else (some emb, a + 1)
    | EmbedResp.timeout =>
      if a < 2 then genEmbedLoop resp (a + 1) fuel else (none, a + 1)
    | EmbedResp.connError =>
      if a < 2 then genEmbedLoop resp (a + 1) fuel else (none, a + 1)
    | EmbedResp.malformedJSON => (none, a + 1)
    | EmbedResp.otherError =>
      if a < 2 then genEmbedLoop resp (a + 1) fuel else (none, a + 1)

/-- `WhereSpace.generate_embedding` as a function of the endpoint
oracle: result vector (or `none`) and number of attempts made. -/
def generate_embedding (resp : ℕ → EmbedResp) : Option (List ℚ) × ℕ :=
  genEmbedLoop resp 0 3

/-- Retry loop of `BatchEmbeddingGenerator._generate_single`
(`max_retries = 3`).  Unlike `generate_embedding` it has no dedicated
`JSONDecodeError` handler: malformed JSON falls into the generic
`except Exception` branch and is retried. -/
def genSingleLoop (resp : ℕ → EmbedResp) : ℕ → ℕ → Option (List ℚ) × ℕ
  | a, 0 => (none, a)
  | a, fuel + 1 =>
    match resp a with
    | EmbedResp.ok emb =>
      if emb = [] then
        if a < 2 then genSingleLoop resp (a + 1) fuel else (none, a + 1)
      else (some emb, a + 1)
    | EmbedResp.timeout =>
      if a < 2 then genSingleLoop resp (a + 1) fuel else (none, a + 1)
    | EmbedResp.connError =>
      if a < 2 then genSingleLoop resp (a + 1) fuel else (none, a + 1)
    | EmbedResp.malformedJSON =>
      if a < 2 then genSingleLoop resp (a + 1) fuel else (none, a + 1)
    | EmbedResp.otherError =>
      if a < 2 then genSingleLoop resp (a + 1) fuel else (none, a + 1)

/-- `BatchEmbeddingGenerator._generate_single` as a function of the
endpoint oracle. -/
def generate_single (resp : ℕ → EmbedResp) : Option (List ℚ) × ℕ :=
  genSingleLoop resp 0 3

/-! ## Batch embedding (`BatchEmbeddingGenerator.generate_embeddings`)

Per-text outcomes are an oracle `g : String → Option (List ℚ)` (the
value `_generate_single` produces for that text); `batchFails b = true`
models `future.result()` raising for batch `b`, which leaves that
batch's slots at `None`.  Thread-pool nondeterminism is modelled by an
explicit completion order: a permutation of the batch ids. -/

/-- Number of worker batches: `range(0, len(texts), batch_size)`. -/
def numBatches (n bs : ℕ) : ℕ := (n + bs - 1) / bs

/-- The texts of batch `b`: `texts[b*bs : b*bs + bs]`. -/
def batchSlice (texts : List String) (bs b : ℕ) : List String :=
  (texts.drop (b * bs)).take bs

/-- Write a batch's results into the pre-sized output list starting at
absolute index `start` (`results[start_idx + i] = emb`). -/
def writeBatch (res : List (Option (List ℚ))) (start : ℕ) :
    List (Option (List ℚ)) → List (Option (List ℚ))
  | [] => res
  | v :: vs => writeBatch (res.set start v) (start + 1) vs

/-- `BatchEmbeddingGenerator.generate_embeddings`: pre-allocate
`[None] * len(texts)`, then fold over the batch completion order,
writing each completed batch at absolute index `batch_id * batch_size`. -/
def generate_embeddings (g : String → Option (List ℚ))
    (batchFails : ℕ → Bool) (bs : ℕ) (order : List ℕ)
    (texts : List String) : List (Option (List ℚ)) :=
  if texts = [] then []
  else
    order.foldl
      (fun res b =>
        if batchFails b then res
        else writeBatch res (b * bs) ((batchSlice texts bs b).map g))
      (List.replicate texts.length none)

/-! ## Chunker (`WhereSpace.chunk_text`)

Text is `List Char`.  `DocumentService.chunk_text` is the same
algorithm with `chunk_size`/`overlap` taken from config, so one
parameterized model covers both. -/

/-- `CHUNK_SIZE = 512`. -/
def CHUNK_SIZE : ℕ := 512

/-- `CHUNK_OVERLAP = 100`. -/
def CHUNK_OVERLAP : ℕ := 100

/-- The characters Python `str.strip()` removes. -/
def isPySpace (c : Char) : Bool :=
  c == ' ' || c == '\t' || c == '\n' || c == '\r' || c == '\x0b' || c == '\x0c'

/-- Python `s.strip()`. -/
def pyStrip (s : List Char) : List Char :=
  ((s.dropWhile isPySpace).reverse.dropWhile isPySpace).reverse

/-- Worker for `pySplit`; `fuel` starts at `length + 1` and strictly
dominates the remaining input, so the `0` case is never reached for a
non-empty separator. -/
def pySplitGo (sep : List Char) : ℕ → List Char → List Char → List (List Char)
  | 0, s, acc => [acc ++ s]
  | fuel + 1, s, acc =>
    match s with
    | [] => [acc]
    | c :: rest =>
      if sep.isPrefixOf s then
        acc :: pySplitGo sep fuel (s.drop sep.length) []
      else pySplitGo sep fuel rest (acc ++ [c])

/-- Python `text.split(sep)` for a non-empty `sep`: split on
non-overlapping leftmost occurrences. -/
def pySplit (sep text : List Char) : List (List Char) :=
  pySplitGo sep (text.length + 1) text []

/-- Re-attach the separator to every split except the last
(`piece = split + (separator if i < len(splits) - 1 else "")`). -/
def mkPieces (sep : List Char) : List (List Char) → List (List Char)
  | [] => []
  | [s] => [s]
  | s :: rest => (s ++ sep) :: mkPieces sep rest

/-- `prev_chunk[-overlap:] if len(prev_chunk) > overlap else prev_chunk`.
Note the Python expression keeps the whole previous chunk when
`overlap = 0`, because `prev[-0:]` is `prev[0:]`. -/
def overlapText (ov : ℕ) (prev : List Char) : List Char :=
  if ov < prev.length then
    if ov = 0 then prev else prev.drop (prev.length - ov)
  else prev

/-- Worker for the character-level windowing fallback.  `fuel` bounds
the number of windows; Python's loop diverges when `overlap ≥
chunk_size`, which the fuel cuts off (the branch is in fact
unreachable from `chunk_text`, see `split_recursive`). -/
def charSplitGo (cs ov len : ℕ) (text : List Char) : ℕ → ℕ → List (List Char)
  | 0, _ => []
  | fuel + 1, start =>
    if start < len then
      let e := min (start + cs) len
      let chunk := (text.drop start).take (e - start)
      let keep := if pyStrip chunk ≠ [] then [chunk] else []
      if len ≤ e then keep
      else keep ++ charSplitGo cs ov len text fuel (e - ov)
    else []

/-- Character-level split with overlap (the `sep_index >=
len(separators)` branch of `split_recursive`). -/
def charSplit (cs ov : ℕ) (text : List Char) : List (List Char) :=
  charSplitGo cs ov text.length text (text.length + 1) 0

/-- The piece-recombination loop of `split_recursive`: greedily pack
pieces into `current`, flushing to `result` on overflow, recursing (via
`recur`, the next separator level) into oversized pieces, and seeding a
new buffer with the previous chunk's trailing `overlap` characters.
Returns `none` when a recursive call raises. -/
def chunkGo (cs ov : ℕ) (recur : List Char → Option (List (List Char))) :
    List (List Char) → List (List Char) → List Char → Option (List (List Char))
  | [], result, current =>
    if pyStrip current ≠ [] then some (result ++ [current]) else some result
  | piece :: ps, result, current =>
    if current.length + piece.length ≤ cs then
      chunkGo cs ov recur ps result (current ++ piece)
    else
      let result1 := if pyStrip current ≠ [] then result ++ [current] else result
      if cs < piece.length then
        match recur piece with
        | none => none
        | some sub => chunkGo cs ov recur ps (result1 ++ sub) []
      else
        match result1.getLast? with
        | some prev => chunkGo cs ov recur ps result1 (overlapText ov prev ++ piece)
        | none => chunkGo cs ov recur ps result1 piece

/-- The recursive splitter inside `chunk_text`, by recursion on the
remaining separator list.  Python's `text.split("")` raises
`ValueError: empty separator`, modelled by `none`: the `""` entry at
the end of `CHUNK_SEPARATORS` means the character-level branch is
unreachable and an unsplittable over-long piece aborts the whole call. -/
def split_recursive (cs ov : ℕ) : List (List Char) → List Char → Option (List (List Char))
  | [], text =>
    if text.length ≤ cs then
      if pyStrip text ≠ [] then some [text] else some []
    else some (charSplit cs ov text)
  | sep :: rest, text =>
    if text.length ≤ cs then
      if pyStrip text ≠ [] then some [text] else some []
    else
      if sep = [] then none
      else
        chunkGo cs ov (fun t => split_recursive cs ov rest t)
          (mkPieces sep (pySplit sep text)) [] []

/-- `CHUNK_SEPARATORS = ["\n\n", "\n", ". ", " ", ""]`. -/
def CHUNK_SEPARATORS : List (List Char) :=
  [['\n', '\n'], ['\n'], ['.', ' '], [' '], []]

/-- `WhereSpace.chunk_text` (and `DocumentService.chunk_text`, which is
the identical algorithm with configured sizes).  `none` models the
`ValueError` escaping the function. -/
def chunk_text (text : List Char) (cs ov : ℕ) : Option (List (List Char)) :=
  if text.length ≤ cs then some [text]
  else
    match split_recursive cs ov CHUNK_SEPARATORS text with
    | none => none
    | some chunks =>
      let stripped := (chunks.map pyStrip).filter (fun c => c ≠ [])
      some (if stripped = [] then [text] else stripped)

/-! ## Ingestion (`ingest_to_pgvector`, `ingest_documents_to_pgvector`)

The database is a pair (committed snapshot, current transaction view)
on one connection: statements act on `current`, `commit` publishes it,
`rollback` restores the committed snapshot.  Text extraction, embedding
and database failures are per-document oracles carried by `DocInput`. -/

/-- One row of the `documents` table (the columns the claims are
about; embeddings are abstracted to an identifier). -/
structure Row where
  path : String
  idx : ℕ
  content : List Char
  mtime : ℚ
  emb : ℕ
deriving DecidableEq, Repr

/-- Connection state: last committed snapshot and the current
transaction's view of the table. -/
structure Conn where
  committed : List Row
  current : List Row
deriving DecidableEq, Repr

def Conn.commit (c : Conn) : Conn := ⟨c.current, c.current⟩

def Conn.rollback (c : Conn) : Conn := ⟨c.committed, c.committed⟩

/-- `is_document_ingested`: fetch one row for `file_path` (reads see
the connection's own uncommitted writes) and compare stored and
candidate modification times for equality. -/
def is_document_ingested (conn : Conn) (path : String) (mtime : ℚ) : Bool :=
  match conn.current.find? (fun r => r.path = path) with
  | some r => decide (r.mtime = mtime)
  | none => false

/-- Rows inserted for a document: one per `(chunk, embedding)` pair,
chunk indices from `enumerate`. -/
def ingestRows (path : String) (pairs : List (List Char × ℕ)) (mtime : ℚ) :
    List Row :=
  pairs.enum.map (fun p => ⟨path, p.1, p.2.1, mtime, p.2.2⟩)

/-- `ingest_to_pgvector`: delete every row for `path`, insert one row
per pair, do NOT commit.  A database error at any point (the `dbFail`
oracle) triggers `conn.rollback()` and returns `False`. -/
def ingest_to_pgvector (conn : Conn) (path : String)
    (chunks : List (List Char)) (embeddings : List ℕ) (mtime : ℚ)
    (dbFail : Bool) : Bool × Conn :=
  if dbFail then (false, conn.rollback)
  else
    (true,
      { conn with
        current := conn.current.filter (fun r => ¬ r.path = path) ++
          ingestRows path (chunks.zip embeddings) mtime })

/-- Per-document oracle data for one ingestion run: identity, whether
`stat()` succeeds, the extracted text (`none` = extraction failed),
the embedding outcome for chunk `i`, and whether the database fails
during this document's `ingest_to_pgvector`. -/
structure DocInput where
  path : String
  mtime : ℚ
  statOk : Bool
  text : Option (List Char)
  embeds : ℕ → Option ℕ
  dbFail : Bool

/-- Sequential-mode embedding loop (used when there is at most one
chunk): collect successes, stopping at the first failure. -/
def seqEmbedGo (embeds : ℕ → Option ℕ) : ℕ → ℕ → List ℕ
  | _, 0 => []
  | i, k + 1 =>
    match embeds i with
    | none => []
    | some e => e :: seqEmbedGo embeds (i + 1) k

/-- Loop-body counters of `ingest_documents_to_pgvector`. -/
structure IngestState where
  conn : Conn
  ingested : ℕ
  failed : ℕ
  skipped : ℕ
  totalChunks : ℕ

/-- The embedding phase for one document's chunks: batch mode when
there is more than one chunk (keep the successful (chunk, embedding)
pairs; `none` when every embedding failed), sequential mode otherwise
(stop at the first failure; `none` unless all chunks got embeddings). -/
def embedPairs (d : DocInput) (chunks : List (List Char)) :
    Option (List (List Char × ℕ)) :=
  let n := chunks.length
  if 1 < n then
    let results := (List.range n).map d.embeds
    if (results.filter (fun r => r = none)).length = n then none
    else some ((chunks.zip results).filterMap
      (fun p => p.2.map (fun e => (p.1, e))))
  else
    let embs := seqEmbedGo d.embeds 0 n
    if embs.length = n then some (chunks.zip embs) else none

/-- One iteration of the document loop (without the batch-commit
check).  The second component is true when control reaches the
`i % 5 == 0` commit point, i.e. when no `continue` was taken. -/
def processDoc (st : IngestState) (d : DocInput) : IngestState × Bool :=
  if ¬ d.statOk then ({ st with skipped := st.skipped + 1 }, false)
  else if is_document_ingested st.conn d.path d.mtime then
    ({ st with skipped := st.skipped + 1 }, false)
  else
    match d.text with
    | none => ({ st with skipped := st.skipped + 1 }, false)
    | some t =>
      if (pyStrip t).length < 50 then
        ({ st with skipped := st.skipped + 1 }, false)
      else
        match chunk_text t CHUNK_SIZE CHUNK_OVERLAP with
        | none =>
          -- the ValueError escapes into the outer handler:
          -- failed_count += 1, conn.rollback(), continue
          ({ st with failed := st.failed + 1, conn := st.conn.rollback }, false)
        | some chunks =>
          let st1 := { st with totalChunks := st.totalChunks + chunks.length }
          match embedPairs d chunks with
          | none => ({ st1 with failed := st1.failed + 1 }, false)
          | some ps =>
            let r := ingest_to_pgvector st1.conn d.path (ps.map Prod.fst)
              (ps.map Prod.snd) d.mtime d.dbFail
            if r.1 then
              ({ st1 with conn := r.2, ingested := st1.ingested + 1 }, true)
            else
              ({ st1 with conn := r.2, failed := st1.failed + 1 }, true)

/-- The document loop: stop ("break") once `existing_count +
ingested_count >= 50`, otherwise process the document and commit every
5 documents (only when the commit point was reached). -/
def ingestLoop (existing : ℕ) : IngestState → ℕ → List DocInput → IngestState
  | st, _, [] => st
  | st, i, d :: rest =>
    if 50 ≤ existing + st.ingested then st
    else
      let p := processDoc st d
      let st2 :=
        if p.2 ∧ i % 5 = 0 then { p.1 with conn := p.1.conn.commit } else p.1
      ingestLoop existing st2 (i + 1) rest

/-- Result of one ingestion run.  `attempted` is
`len(documents_to_process)` after the ceiling truncation. -/
structure IngestResult where
  ingested : ℕ
  failed : ℕ
  skipped : ℕ
  totalChunks : ℕ
  attempted : ℕ
  conn : Conn

/-- Distinct-document count: `SELECT COUNT(DISTINCT file_path)`. -/
def countDistinctPaths (s : List Row) : ℕ := (s.map Row.path).dedup.length

/-- `ingest_documents_to_pgvector` on a fresh connection to a store
holding `initStore`: read the distinct-document count, enforce the
50-document ceiling, run the loop, final commit. -/
def ingest_documents_to_pgvector (initStore : List Row)
    (documents : List DocInput) : IngestResult :=
  let conn : Conn := ⟨initStore, initStore⟩
  let existing := countDistinctPaths conn.current
  if 50 ≤ existing then
    { ingested := 0, failed := 0, skipped := 0, totalChunks := 0,
      attempted := 0, conn := conn }
  else
    let toProcess := documents.take (50 - existing)
    let final := ingestLoop existing
      { conn := conn, ingested := 0, failed := 0, skipped := 0,
        totalChunks := 0 } 1 toProcess
    { ingested := final.ingested, failed := final.failed,
      skipped := final.skipped, totalChunks := final.totalChunks,
      attempted := toProcess.length, conn := final.conn.commit }

/-! ## Shared lemmas -/

theorem chunk_text_ne_nil (t : List Char) (cs ov : ℕ)
    (chunks : List (List Char)) (h : chunk_text t cs ov = some chunks) :
    chunks ≠ [] := by
  unfold chunk_text at h
  by_cases hshort : t.length ≤ cs
  · rw [if_pos hshort] at h
    rcases Option.some.inj h with rfl
    simp
  · rw [if_neg hshort] at h
    rcases hsp : split_recursive cs ov CHUNK_SEPARATORS t with _ | raw
    · rw [hsp] at h
      exact absurd h (by simp)
    · rw [hsp] at h
      rcases Option.some.inj h with rfl
      by_cases hemp : ((raw.map pyStrip).filter (fun x => x ≠ [])) = []
      · rw [if_pos hemp]
        simp
      · rw [if_neg hemp]
        exact hemp

theorem seqEmbedGo_all_some (embeds : ℕ → Option ℕ) (embVal : ℕ → ℕ)
    (hemb : ∀ i, embeds i = some (embVal i)) :
    ∀ (n s : ℕ), seqEmbedGo embeds s n
      = (List.range n).map (fun j => embVal (s + j)) := by
  intro n
  induction n with
  | zero => intro s; rfl
  | succ n ih =>
    intro s
    have hstep : seqEmbedGo embeds s (n + 1)
        = embVal s :: seqEmbedGo embeds (s + 1) n := by
      simp only [seqEmbedGo, hemb s]
    rw [hstep, ih (s + 1), List.range_succ_eq_map, List.map_cons,
      List.map_map]
    have hf : (fun j => embVal (s + 1 + j))
        = ((fun j => embVal (s + j)) ∘ Nat.succ) := by
      funext j
      simp only [Function.comp_apply]
      congr 1
      omega
    rw [hf]
    simp

theorem filterMap_zip_some (l2 : List ℕ) :
    ∀ (l1 : List (List Char)),
      ((l1.zip (l2.map some)).filterMap
        (fun p => p.2.map (fun e => (p.1, e)))) = l1.zip l2 := by
  induction l2 with
  | nil => intro l1; cases l1 <;> rfl
  | cons e es ih =>
    intro l1
    cases l1 with
    | nil => rfl
    | cons c cs =>
      simp only [List.map_cons, List.zip_cons_cons, List.filterMap_cons]
      rw [ih cs]
      rfl

theorem ingestRows_path (path : String) (pairs : List (List Char × ℕ))
    (mtime : ℚ) : ∀ r ∈ ingestRows path pairs mtime, r.path = path := by
  intro r hr
  unfold ingestRows at hr
  rcases List.mem_map.mp hr with ⟨p, _, rfl⟩
  rfl

theorem find?_eq_none_of_filter_eq_nil {p : String}
    {l : List Row} (h : l.filter (fun r => r.path = p) = []) :
    l.find? (fun r => r.path = p) = none := by
  rw [List.find?_eq_none]
  intro x hx hpx
  have : x ∈ l.filter (fun r => r.path = p) := List.mem_filter.mpr ⟨hx, hpx⟩
  rw [h] at this
  simp at this

theorem cacheLookup_erase (key : List ℚ × ℕ)
    (l : List ((List ℚ × ℕ) × CEntry)) :
    cacheLookup key (cacheErase key l) = none := by
  unfold cacheLookup
  have h : (cacheErase key l).find? (fun e => e.1 = key) = none := by
    rw [List.find?_eq_none]
    intro x hx
    rcases List.mem_filter.mp hx with ⟨_, hpred⟩
    simpa using hpred
  rw [h]

theorem cacheErase_sublist (key : List ℚ × ℕ)
    (l : List ((List ℚ × ℕ) × CEntry)) :
    (cacheErase key l).Sublist l :=
  List.filter_sublist l

theorem embedPairs_all_some (d : DocInput) (chunks : List (List Char))
    (embVal : ℕ → ℕ) (hemb : ∀ i, d.embeds i = some (embVal i))
    (hne : chunks ≠ []) :
    embedPairs d chunks
      = some (chunks.zip ((List.range chunks.length).map embVal)) := by
  unfold embedPairs
  have hmap : (List.range chunks.length).map d.embeds
      = ((List.range chunks.length).map embVal).map some := by
    rw [List.map_map]
    exact List.map_congr_left (fun i _ => hemb i)
  by_cases hn : 1 < chunks.length
  · rw [if_pos hn, hmap]
    have hfilter : ((((List.range chunks.length).map embVal).map some).filter
        (fun r => r = none)).length = 0 := by
      rw [List.length_eq_zero]
      rw [List.filter_eq_nil_iff]
      intro a ha
      rcases List.mem_map.mp ha with ⟨v, _, rfl⟩
      simp
    dsimp only
    rw [hfilter]
    rw [if_neg (by omega)]
    rw [filterMap_zip_some]
  · rw [if_neg hn]
    have hseq : seqEmbedGo d.embeds 0 chunks.length
        = (List.range chunks.length).map embVal := by
      rw [seqEmbedGo_all_some d.embeds embVal hemb]
      exact List.map_congr_left (fun j _ => by simp)
    rw [hseq]
    rw [if_pos (by rw [List.length_map, List.length_range])]

theorem ingest_to_pgvector_ok (conn : Conn) (path : String)
    (ps : List (List Char × ℕ)) (mtime : ℚ) :
    ingest_to_pgvector conn path (ps.map Prod.fst) (ps.map Prod.snd)
      mtime false
      = (true, Conn.mk conn.committed
          (conn.current.filter (fun r => ¬ r.path = path)
            ++ ingestRows path ps mtime)) := by
  unfold ingest_to_pgvector
  rw [if_neg (by simp)]
  rw [(List.zip_of_prod rfl rfl : ps = _).symm]

/-- Outcome of the loop body on a "clean" document: every check passes,
all embeddings succeed, the database does not fail — the document's
rows replace whatever the transaction held for its path and the
ingested counter advances. -/
theorem processDoc_clean (st : IngestState) (d : DocInput) (t : List Char)
    (chunks : List (List Char)) (embVal : ℕ → ℕ)
    (hstat : d.statOk = true) (hdb : d.dbFail = false)
    (ht : d.text = some t) (hlen50 : ¬ (pyStrip t).length < 50)
    (hch : chunk_text t CHUNK_SIZE CHUNK_OVERLAP = some chunks)
    (hemb : ∀ i, d.embeds i = some (embVal i))
    (hfresh : st.conn.current.filter (fun r => r.path = d.path) = []) :
    processDoc st d =
      (IngestState.mk
        (Conn.mk st.conn.committed
          (st.conn.current.filter (fun r => ¬ r.path = d.path)
            ++ ingestRows d.path
              (chunks.zip ((List.range chunks.length).map embVal))
              d.mtime))
        (st.ingested + 1) st.failed st.skipped
        (st.totalChunks + chunks.length), true) := by
  have hfind := find?_eq_none_of_filter_eq_nil hfresh
  have hing : is_document_ingested st.conn d.path d.mtime = false := by
    unfold is_document_ingested
    rw [hfind]
  have hne := chunk_text_ne_nil t CHUNK_SIZE CHUNK_OVERLAP chunks hch
  have hpairs := embedPairs_all_some d chunks embVal hemb hne
  unfold processDoc
  rw [if_neg (show ¬ ¬ (d.statOk = true) by simp [hstat])]
  rw [if_neg (show ¬ (is_document_ingested st.conn d.path d.mtime = true)
    by simp [hing])]
  rw [ht]
  simp only [if_neg hlen50]
  rw [hch]
  simp only [hpairs]
  rw [hdb]
  rw [ingest_to_pgvector_ok st.conn d.path
    (chunks.zip ((List.range chunks.length).map embVal)) d.mtime]
  rfl

theorem ingest_to_pgvector_fail (conn : Conn) (path : String)
    (cs : List (List Char)) (es : List ℕ) (mtime : ℚ) :
    ingest_to_pgvector conn path cs es mtime true = (false, conn.rollback) := by
  unfold ingest_to_pgvector
  rw [if_pos rfl]

/-- The loop body leaves the connection in one of three shapes: as it
was, rolled back (only on a database failure or a chunking
`ValueError`), or with the document's rows replacing the rows of its
path in the transaction (only when the database call does not fail). -/
theorem processDoc_conn_cases (st : IngestState) (d : DocInput) :
    ((processDoc st d).1).conn = st.conn ∨
    (((processDoc st d).1).conn = st.conn.rollback ∧
      (d.dbFail = true ∨ ∃ t, d.text = some t ∧
        chunk_text t CHUNK_SIZE CHUNK_OVERLAP = none)) ∨
    (d.dbFail = false ∧ ∃ ps : List (List Char × ℕ),
      ((processDoc st d).1).conn = Conn.mk st.conn.committed
        (st.conn.current.filter (fun r => ¬ r.path = d.path)
          ++ ingestRows d.path ps d.mtime)) := by
  rcases hdbv : d.dbFail with _ | _ <;>
  · unfold processDoc
    simp only [hdbv]
    repeat
      first
      | exact Or.inl rfl
      | exact Or.inr (Or.inl ⟨rfl, Or.inl rfl⟩)
      | exact Or.inr (Or.inl ⟨rfl, Or.inl True.intro⟩)
      | (rename_i t1 heq1 hlen x2 heq2
         exact Or.inr (Or.inl ⟨rfl, Or.inr ⟨t1, heq1, heq2⟩⟩))
      | exact Or.inr (Or.inr ⟨rfl, _, rfl⟩)
      | exact Or.inr (Or.inr ⟨True.intro, _, rfl⟩)
      | split

/-- Refinement of `processDoc_conn_cases` when the document cannot
trigger a rollback (database healthy, chunking cannot raise): the
connection is unchanged or holds the document's ingested rows. -/
theorem processDoc_conn_cases_noroll (st : IngestState) (d : DocInput)
    (hdb : d.dbFail = false)
    (hch : ∀ t, d.text = some t →
      (chunk_text t CHUNK_SIZE CHUNK_OVERLAP).isSome) :
    ((processDoc st d).1).conn = st.conn ∨
    (∃ ps : List (List Char × ℕ),
      ((processDoc st d).1).conn = Conn.mk st.conn.committed
        (st.conn.current.filter (fun r => ¬ r.path = d.path)
          ++ ingestRows d.path ps d.mtime)) := by
  rcases processDoc_conn_cases st d
    with h | ⟨h, hsrc | ⟨t, ht, hcn⟩⟩ | ⟨_, ps, h⟩
  · exact Or.inl h
  · rw [hdb] at hsrc
    simp at hsrc
  · have h2 := hch t ht
    rw [hcn] at h2
    simp at h2
  · exact Or.inr ⟨ps, h⟩

/-- The loop body never commits: the committed snapshot is untouched. -/
theorem processDoc_committed_const (st : IngestState) (d : DocInput) :
    ((processDoc st d).1).conn.committed = st.conn.committed := by
  rcases processDoc_conn_cases st d with h | ⟨h, _⟩ | ⟨_, _, h⟩
  · rw [h]
  · rw [h]
    rfl
  · rw [h]

theorem filter_path_ingest_shape (cur : List Row) (dpath p : String)
    (ps : List (List Char × ℕ)) (mt : ℚ) (hne : dpath ≠ p) :
    ((cur.filter (fun r => ¬ r.path = dpath)
      ++ ingestRows dpath ps mt).filter (fun r => r.path = p))
      = cur.filter (fun r => r.path = p) := by
  rw [List.filter_append]
  have h2 : (ingestRows dpath ps mt).filter (fun r => r.path = p) = [] := by
    rw [List.filter_eq_nil_iff]
    intro r hr
    rw [ingestRows_path dpath ps mt r hr]
    simp [hne]
  rw [h2, List.append_nil]
  rw [List.filter_filter]
  apply List.filter_congr
  intro r _
  by_cases hr : r.path = p
  · have hpd : ¬ p = dpath := fun h => hne h.symm
    simp [hr, hpd]
  · simp [hr]

/-- Preservation of the rows of one path `p` through the loop body,
for a document that either has a different path or fails at the
database: both the transaction view and the committed snapshot keep
exactly the same rows for `p`. -/
theorem processDoc_path_preserved (st : IngestState) (d : DocInput)
    (p : String) (S : List Row)
    (hd : d.path ≠ p ∨ d.dbFail = true)
    (hcur : st.conn.current.filter (fun r => r.path = p) = S)
    (hcom : st.conn.committed.filter (fun r => r.path = p) = S) :
    ((processDoc st d).1).conn.current.filter (fun r => r.path = p) = S ∧
    ((processDoc st d).1).conn.committed.filter (fun r => r.path = p) = S := by
  rcases processDoc_conn_cases st d with h | ⟨h, _⟩ | ⟨hdb, ps, h⟩
  · rw [h]
    exact ⟨hcur, hcom⟩
  · rw [h]
    exact ⟨hcom, hcom⟩
  · have hpne : d.path ≠ p := by
      rcases hd with h' | h'
      · exact h'
      · rw [hdb] at h'
        simp at h'
    rw [h]
    constructor
    · exact (filter_path_ingest_shape st.conn.current d.path p ps d.mtime
        hpne).trans hcur
    · exact hcom

/-- Preservation of the current-transaction rows of path `p` through
the loop body for a rollback-free document of a different path. -/
theorem processDoc_current_preserved (st : IngestState) (d : DocInput)
    (p : String) (S : List Row)
    (hpne : d.path ≠ p) (hdb : d.dbFail = false)
    (hch : ∀ t, d.text = some t →
      (chunk_text t CHUNK_SIZE CHUNK_OVERLAP).isSome)
    (hcur : st.conn.current.filter (fun r => r.path = p) = S) :
    ((processDoc st d).1).conn.current.filter (fun r => r.path = p) = S := by
  rcases processDoc_conn_cases_noroll st d hdb hch with h | ⟨ps, h⟩
  · rw [h]
    exact hcur
  · rw [h]
    exact (filter_path_ingest_shape st.conn.current d.path p ps d.mtime
      hpne).trans hcur

/-- Bound on how much one loop iteration can advance the ingest
counter. -/
theorem processDoc_ingested_le (st : IngestState) (d : DocInput) :
    st.ingested ≤ ((processDoc st d).1).ingested ∧
    ((processDoc st d).1).ingested ≤ st.ingested + 1 := by
  unfold processDoc
  repeat
    first
    | exact ⟨Nat.le_refl _, Nat.le_succ _⟩
    | exact ⟨Nat.le_succ _, Nat.le_refl _⟩
    | split
    | dsimp only

theorem ingestLoop_stop (existing : ℕ) (st : IngestState) (i : ℕ)
    (l : List DocInput) (h : 50 ≤ existing + st.ingested) :
    ingestLoop existing st i l = st := by
  cases l with
  | nil => rfl
  | cons d rest =>
    unfold ingestLoop
    rw [if_pos h]

/-- Unfolding one non-break iteration of the document loop. -/
theorem ingestLoop_cons (existing : ℕ) (st : IngestState) (i : ℕ)
    (d : DocInput) (L : List DocInput)
    (h : ¬ 50 ≤ existing + st.ingested) :
    ingestLoop existing st i (d :: L)
      = ingestLoop existing
          (if (processDoc st d).2 = true ∧ i % 5 = 0 then
            IngestState.mk ((processDoc st d).1.conn.commit)
              ((processDoc st d).1.ingested) ((processDoc st d).1.failed)
              ((processDoc st d).1.skipped) ((processDoc st d).1.totalChunks)
          else (processDoc st d).1) (i + 1) L := by
  conv_lhs => unfold ingestLoop
  rw [if_neg h]

theorem ingestLoop_append (existing : ℕ) (l1 : List DocInput) :
    ∀ (l2 : List DocInput) (st : IngestState) (i : ℕ),
      ingestLoop existing st i (l1 ++ l2)
        = ingestLoop existing (ingestLoop existing st i l1)
            (i + l1.length) l2 := by
  induction l1 with
  | nil =>
    intro l2 st i
    simp only [List.nil_append, List.length_nil, Nat.add_zero]
    rfl
  | cons d rest ih =>
    intro l2 st i
    by_cases hbrk : 50 ≤ existing + st.ingested
    · rw [List.cons_append,
        ingestLoop_stop existing st i _ hbrk,
        ingestLoop_stop existing st i _ hbrk,
        ingestLoop_stop existing st _ l2 hbrk]
    · rw [List.cons_append,
        ingestLoop_cons existing st i d _ hbrk,
        ingestLoop_cons existing st i d _ hbrk,
        ih l2 _ (i + 1)]
      congr 1
      simp only [List.length_cons]
      omega

theorem ingestLoop_ingested_le (existing : ℕ) :
    ∀ (l : List DocInput) (st : IngestState) (i : ℕ),
      (ingestLoop existing st i l).ingested ≤ st.ingested + l.length := by
  intro l
  induction l with
  | nil =>
    intro st i
    exact Nat.le_add_right _ _
  | cons d rest ih =>
    intro st i
    by_cases hbrk : 50 ≤ existing + st.ingested
    · rw [ingestLoop_stop _ _ _ _ hbrk]
      exact Nat.le_add_right _ _
    · rw [ingestLoop_cons _ _ _ _ _ hbrk]
      have h2 : (if (processDoc st d).2 = true ∧ i % 5 = 0 then
          IngestState.mk ((processDoc st d).1.conn.commit)
            ((processDoc st d).1.ingested) ((processDoc st d).1.failed)
            ((processDoc st d).1.skipped) ((processDoc st d).1.totalChunks)
          else (processDoc st d).1).ingested
          = (processDoc st d).1.ingested := by
        split
        · rfl
        · rfl
      have h3 := ih (if (processDoc st d).2 = true ∧ i % 5 = 0 then
          IngestState.mk ((processDoc st d).1.conn.commit)
            ((processDoc st d).1.ingested) ((processDoc st d).1.failed)
            ((processDoc st d).1.skipped) ((processDoc st d).1.totalChunks)
          else (processDoc st d).1) (i + 1)
      rw [h2] at h3
      have h4 := (processDoc_ingested_le st d).2
      simp only [List.length_cons]
      omega

/-- The commit-wrapper around the loop body: committing publishes the
transaction, so afterwards both views hold the transaction's rows. -/
theorem ingestLoop_path_preserved (existing : ℕ) (p : String) (S : List Row) :
    ∀ (l : List DocInput) (st : IngestState) (i : ℕ),
      (∀ e ∈ l, e.path ≠ p ∨ e.dbFail = true) →
      st.conn.current.filter (fun r => r.path = p) = S →
      st.conn.committed.filter (fun r => r.path = p) = S →
      (ingestLoop existing st i l).conn.current.filter
        (fun r => r.path = p) = S ∧
      (ingestLoop existing st i l).conn.committed.filter
        (fun r => r.path = p) = S := by
  intro l
  induction l with
  | nil =>
    intro st i _ hcur hcom
    exact ⟨hcur, hcom⟩
  | cons d rest ih =>
    intro st i hl hcur hcom
    by_cases hbrk : 50 ≤ existing + st.ingested
    · rw [ingestLoop_stop _ _ _ _ hbrk]
      exact ⟨hcur, hcom⟩
    · rw [ingestLoop_cons _ _ _ _ _ hbrk]
      have hstep := processDoc_path_preserved st d p S
        (hl d (List.mem_cons_self d rest)) hcur hcom
      refine ih _ (i + 1) (fun e he => hl e (List.mem_cons_of_mem d he))
        ?_ ?_
      · split
        · exact hstep.1
        · exact hstep.1
      · split
        · exact hstep.1
        · exact hstep.2

theorem ingestLoop_current_preserved (existing : ℕ) (p : String)
    (S : List Row) :
    ∀ (l : List DocInput) (st : IngestState) (i : ℕ),
      (∀ e ∈ l, e.path ≠ p ∧ e.dbFail = false ∧
        (∀ t, e.text = some t →
          (chunk_text t CHUNK_SIZE CHUNK_OVERLAP).isSome)) →
      st.conn.current.filter (fun r => r.path = p) = S →
      (ingestLoop existing st i l).conn.current.filter
        (fun r => r.path = p) = S := by
  intro l
  induction l with
  | nil =>
    intro st i _ hcur
    exact hcur
  | cons d rest ih =>
    intro st i hl hcur
    by_cases hbrk : 50 ≤ existing + st.ingested
    · rw [ingestLoop_stop _ _ _ _ hbrk]
      exact hcur
    · rw [ingestLoop_cons _ _ _ _ _ hbrk]
      rcases hl d (List.mem_cons_self d rest) with ⟨hp, hdb, hch⟩
      have hstep := processDoc_current_preserved st d p S hp hdb hch hcur
      refine ih _ (i + 1) (fun e he => hl e (List.mem_cons_of_mem d he)) ?_
      split
      · exact hstep
      · exact hstep

theorem filter_path_ingest_self (cur : List Row) (p : String)
    (ps : List (List Char × ℕ)) (mt : ℚ) :
    ((cur.filter (fun r => ¬ r.path = p)
      ++ ingestRows p ps mt).filter (fun r => r.path = p))
      = ingestRows p ps mt := by
  rw [List.filter_append]
  have h1 : (cur.filter (fun r => ¬ r.path = p)).filter
      (fun r => r.path = p) = [] := by
    rw [List.filter_eq_nil_iff]
    intro r hr
    have := List.of_mem_filter hr
    simpa using this
  have h2 : (ingestRows p ps mt).filter (fun r => r.path = p)
      = ingestRows p ps mt := by
    rw [List.filter_eq_self]
    intro r hr
    simp [ingestRows_path p ps mt r hr]
  rw [h1, h2, List.nil_append]

theorem pairwise_path_cases {docs : List DocInput}
    (h : docs.Pairwise (fun a b => a.path ≠ b.path)) {d e : DocInput}
    (hd : d ∈ docs) (he : e ∈ docs) (hdb : d.dbFail = true) :
    e.path ≠ d.path ∨ e.dbFail = true := by
  induction docs with
  | nil => cases hd
  | cons x xs ih =>
    rcases List.mem_cons.mp hd with rfl | hd'
    · rcases List.mem_cons.mp he with rfl | he'
      · exact Or.inr hdb
      · exact Or.inl (List.rel_of_pairwise_cons h he').symm
    · rcases List.mem_cons.mp he with rfl | he'
      · exact Or.inl (List.rel_of_pairwise_cons h hd')
      · exact ih h.of_cons hd' he'

/-- The `i % 5 == 0` commit point never changes the transaction view,
only the committed snapshot. -/
theorem wrapState_conn_current (q : IngestState × Bool) (i : ℕ) :
    (if q.2 = true ∧ i % 5 = 0 then
      IngestState.mk (q.1.conn.commit) q.1.ingested q.1.failed
        q.1.skipped q.1.totalChunks
    else q.1).conn.current = q.1.conn.current := by
  split
  · rfl
  · rfl

theorem wrapState_ingested (q : IngestState × Bool) (i : ℕ) :
    (if q.2 = true ∧ i % 5 = 0 then
      IngestState.mk (q.1.conn.commit) q.1.ingested q.1.failed
        q.1.skipped q.1.totalChunks
    else q.1).ingested = q.1.ingested := by
  split
  · rfl
  · rfl

theorem countDistinctPaths_append_fresh (l rows : List Row) (p : String)
    (hfresh : l.filter (fun r => r.path = p) = []) (hne : rows ≠ [])
    (hall : ∀ r ∈ rows, r.path = p) :
    countDistinctPaths (l ++ rows) = countDistinctPaths l + 1 := by
  unfold countDistinctPaths
  rw [← List.card_toFinset, ← List.card_toFinset]
  rw [List.map_append, List.toFinset_append]
  have hrows : (rows.map Row.path).toFinset = {p} := by
    apply Finset.ext
    intro x
    simp only [List.mem_toFinset, List.mem_map, Finset.mem_singleton]
    constructor
    · rintro ⟨r, hr, rfl⟩
      exact hall r hr
    · rintro rfl
      rcases rows with _ | ⟨r0, rs⟩
      · exact absurd rfl hne
      · exact ⟨r0, List.mem_cons_self r0 rs,
          hall r0 (List.mem_cons_self r0 rs)⟩
  have hnot : p ∉ (l.map Row.path).toFinset := by
    simp only [List.mem_toFinset, List.mem_map]
    rintro ⟨r, hr, hrp⟩
    have : r ∈ l.filter (fun r => r.path = p) :=
      List.mem_filter.mpr ⟨hr, by simp [hrp]⟩
    rw [hfresh] at this
    simp at this
  rw [hrows]
  have hunion : (l.map Row.path).toFinset ∪ {p}
      = insert p (l.map Row.path).toFinset := by
    rw [Finset.union_comm]
    rw [Finset.insert_eq]
  rw [hunion, Finset.card_insert_of_not_mem hnot]

theorem ingestRows_ne_nil (path : String) (pairs : List (List Char × ℕ))
    (mt : ℚ) (h : pairs ≠ []) : ingestRows path pairs mt ≠ [] := by
  unfold ingestRows
  simp only [ne_eq, List.map_eq_nil, List.enum_eq_nil]
  exact h

/-- A run over clean, pairwise-fresh documents under the remaining-slot
budget ingests every document and adds exactly one distinct path each. -/
theorem ingestLoop_clean_run (existing : ℕ) :
    ∀ (l : List DocInput) (st : IngestState) (i : ℕ),
      (∀ d ∈ l, d.statOk = true ∧ d.dbFail = false ∧
        ∃ (t : List Char) (chunks : List (List Char)) (embVal : ℕ → ℕ),
          d.text = some t ∧ ¬ (pyStrip t).length < 50 ∧
          chunk_text t CHUNK_SIZE CHUNK_OVERLAP = some chunks ∧
          ∀ j, d.embeds j = some (embVal j)) →
      l.Pairwise (fun a b => a.path ≠ b.path) →
      (∀ d ∈ l, st.conn.current.filter (fun r => r.path = d.path) = []) →
      existing + st.ingested + l.length ≤ 50 →
      (ingestLoop existing st i l).ingested = st.ingested + l.length ∧
      countDistinctPaths (ingestLoop existing st i l).conn.current
        = countDistinctPaths st.conn.current + l.length := by
  intro l
  induction l with
  | nil =>
    intro st i _ _ _ _
    exact ⟨rfl, rfl⟩
  | cons d rest ih =>
    intro st i hclean hdist hfresh hcap
    have hlen : (d :: rest).length = rest.length + 1 := rfl
    have hnobrk : ¬ 50 ≤ existing + st.ingested := by
      rw [hlen] at hcap
      omega
    rw [ingestLoop_cons existing st i d rest hnobrk]
    obtain ⟨hstat, hdb, t, chunks, embVal, ht, hlent, hch, hemb⟩ :=
      hclean d (List.mem_cons_self d rest)
    have hfd := hfresh d (List.mem_cons_self d rest)
    have hclean_eq := processDoc_clean st d t chunks embVal hstat hdb ht
      hlent hch hemb hfd
    set stW := (if (processDoc st d).2 = true ∧ i % 5 = 0 then
        IngestState.mk ((processDoc st d).1.conn.commit)
          ((processDoc st d).1.ingested) ((processDoc st d).1.failed)
          ((processDoc st d).1.skipped) ((processDoc st d).1.totalChunks)
      else (processDoc st d).1) with hstW
    have hwc : stW.conn.current = (processDoc st d).1.conn.current := by
      rw [hstW]
      exact wrapState_conn_current (processDoc st d) i
    have hwi : stW.ingested = (processDoc st d).1.ingested := by
      rw [hstW]
      exact wrapState_ingested (processDoc st d) i
    have hnochange : st.conn.current.filter (fun r => ¬ r.path = d.path)
        = st.conn.current := by
      rw [List.filter_eq_self]
      intro r hr
      have : ¬ r.path = d.path := by
        intro hrp
        have : r ∈ st.conn.current.filter (fun r => r.path = d.path) :=
          List.mem_filter.mpr ⟨hr, by simp [hrp]⟩
        rw [hfd] at this
        simp at this
      simp [this]
    have hcur_eq : (processDoc st d).1.conn.current
        = st.conn.current ++ ingestRows d.path
          (chunks.zip ((List.range chunks.length).map embVal)) d.mtime := by
      rw [hclean_eq]
      dsimp only
      rw [hnochange]
    have hing_eq : (processDoc st d).1.ingested = st.ingested + 1 := by
      rw [hclean_eq]
    have hrowsne : ingestRows d.path
        (chunks.zip ((List.range chunks.length).map embVal)) d.mtime
        ≠ [] := by
      apply ingestRows_ne_nil
      have hne := chunk_text_ne_nil t CHUNK_SIZE CHUNK_OVERLAP chunks hch
      rcases chunks with _ | ⟨c0, cs⟩
      · exact absurd rfl hne
      · simp [List.range_succ_eq_map]
    have hcount : countDistinctPaths stW.conn.current
        = countDistinctPaths st.conn.current + 1 := by
      rw [hwc, hcur_eq]
      exact countDistinctPaths_append_fresh st.conn.current _ d.path hfd
        hrowsne (ingestRows_path d.path _ d.mtime)
    have hfresh2 : ∀ e ∈ rest, stW.conn.current.filter
        (fun r => r.path = e.path) = [] := by
      intro e he
      rw [hwc, hcur_eq, List.filter_append]
      have hpne : d.path ≠ e.path := List.rel_of_pairwise_cons hdist he
      have h1 : st.conn.current.filter (fun r => r.path = e.path) = [] :=
        hfresh e (List.mem_cons_of_mem d he)
      have h2 : (ingestRows d.path
          (chunks.zip ((List.range chunks.length).map embVal))
          d.mtime).filter (fun r => r.path = e.path) = [] := by
        rw [List.filter_eq_nil_iff]
        intro r hr
        rw [ingestRows_path d.path _ d.mtime r hr]
        simp [hpne]
      rw [h1, h2]
      rfl
    have hih := ih stW (i + 1)
      (fun e he => hclean e (List.mem_cons_of_mem d he))
      hdist.of_cons hfresh2
      (by rw [hwi, hing_eq]; rw [hlen] at hcap; omega)
    constructor
    · rw [hih.1, hwi, hing_eq, hlen]
      omega
    · rw [hih.2, hcount, hlen]
      omega

theorem dedupPass_sublist (l : List DChunk) :
    ∀ seen, (dedupPass seen l).Sublist l := by
  induction l with
  | nil => intro seen; simp [dedupPass]
  | cons c rest ih =>
    intro seen
    simp only [dedupPass]
    by_cases h : c.content ∈ seen
    · simp only [h, if_true]
      exact (ih seen).cons c
    · simp only [h, if_false]
      exact (ih (c.content :: seen)).cons₂ c

theorem divPass_sublist (n : ℕ) (l : List DChunk) :
    ∀ seen k, (divPass n seen k l).Sublist l := by
  induction l with
  | nil => intro seen k; simp [divPass]
  | cons c rest ih =>
    intro seen k
    simp only [divPass]
    by_cases h : c.file_name ∈ seen
    · simp only [h, if_true]
      by_cases h2 : 2 * k < n
      · simp only [h2, if_true]
        exact (ih seen (k + 1)).cons₂ c
      · simp only [h2, if_false]
        exact (ih seen k).cons c
    · simp only [h, if_false]
      exact (ih (c.file_name :: seen) (k + 1)).cons₂ c

theorem dedupPass_eq_self (l : List DChunk)
    (hdist : l.Pairwise (fun a b => a.content ≠ b.content)) :
    ∀ seen, (∀ c ∈ l, c.content ∉ seen) → dedupPass seen l = l := by
  induction l with
  | nil => intro seen _; rfl
  | cons c rest ih =>
    intro seen hdisj
    have hc : c.content ∉ seen := hdisj c (List.mem_cons_self c rest)
    simp only [dedupPass, hc, if_false]
    congr 1
    refine ih hdist.of_cons (c.content :: seen) (fun x hx => ?_)
    intro hmem
    rcases List.mem_cons.mp hmem with heq | hseen
    · exact (List.rel_of_pairwise_cons hdist hx) heq.symm
    · exact hdisj x (List.mem_cons_of_mem c hx) hseen

theorem divPass_first_occ (n : ℕ) (l : List DChunk) :
    ∀ (seen : List String) (k : ℕ) (f : String) (c₀ : DChunk),
      f ∉ seen → l.find? (fun c => c.file_name = f) = some c₀ →
      c₀ ∈ divPass n seen k l := by
  induction l with
  | nil => intro seen k f c₀ _ hfind; simp [List.find?] at hfind
  | cons c rest ih =>
    intro seen k f c₀ hf hfind
    by_cases hcf : c.file_name = f
    · have hc0 : c₀ = c := by
        simp [List.find?_cons, hcf] at hfind
        exact hfind.symm
      subst hc0
      have hns : c₀.file_name ∉ seen := by rw [hcf]; exact hf
      simp only [divPass, hns, if_false]
      exact List.mem_cons_self _ _
    · have hfind' : rest.find? (fun c => c.file_name = f) = some c₀ := by
        simpa [List.find?_cons, hcf] using hfind
      simp only [divPass]
      by_cases hs : c.file_name ∈ seen
      · simp only [hs, if_true]
        by_cases h2 : 2 * k < n
        · simp only [h2, if_true]
          exact List.mem_cons_of_mem c (ih seen (k + 1) f c₀ hf hfind')
        · simp only [h2, if_false]
          exact ih seen k f c₀ hf hfind'
      · simp only [hs, if_false]
        refine List.mem_cons_of_mem c (ih (c.file_name :: seen) (k + 1) f c₀ ?_ hfind')
        intro hmem
        rcases List.mem_cons.mp hmem with heq | hseen
        · exact hcf heq.symm
        · exact hf hseen

theorem deduplicate_chunks_sublist (chunks : List DChunk) :
    (deduplicate_chunks chunks).Sublist chunks := by
  unfold deduplicate_chunks
  by_cases h : chunks.length ≤ 1
  · simp only [h, if_true]
    exact List.Sublist.refl chunks
  · simp only [h, if_false]
    exact (divPass_sublist _ _ _ _).trans (dedupPass_sublist _ _)

theorem deduplicate_chunks_first_occ (chunks : List DChunk)
    (hdist : chunks.Pairwise (fun a b => a.content ≠ b.content))
    (f : String) (c₀ : DChunk)
    (hfind : chunks.find? (fun c => c.file_name = f) = some c₀) :
    c₀ ∈ deduplicate_chunks chunks := by
  unfold deduplicate_chunks
  by_cases h : chunks.length ≤ 1
  · simp only [h, if_true]
    exact List.mem_of_find?_eq_some hfind
  · simp only [h, if_false]
    have hu : dedupPass [] chunks = chunks :=
      dedupPass_eq_self chunks hdist [] (by simp)
    rw [hu]
    exact divPass_first_occ _ _ [] 0 f c₀ (by simp) hfind

/-! ## Claim theorems -/

/-- C6: a cache entry inserted at time `T` with time-to-live `ttl` is a
miss (and is removed) on any read strictly after `T + ttl`, and a hit
returning the stored results on any read strictly before `T + ttl`. -/
theorem C6_cache_ttl_expiry (qc : QueryCache) (emb : List ℚ) (k : ℕ)
    (res : List SRes) (T ttl : ℚ)
    (hE : cacheLookup (mkKey emb k) qc.cache = some ⟨res, T⟩)
    (httl : qc.ttl = ttl) :
    (∀ t : ℚ, T + ttl < t →
      (qc.get emb k t).1 = none ∧
        cacheLookup (mkKey emb k) ((qc.get emb k t).2).cache = none) ∧
    (∀ t : ℚ, t < T + ttl → (qc.get emb k t).1 = some res) := by
  constructor
  · intro t ht
    have hnot : ¬ t - T < qc.ttl := by
      rw [httl]; intro h; linarith
    simp only [QueryCache.get, hE, hnot, if_false]
    exact ⟨trivial, cacheLookup_erase _ _⟩
  · intro t ht
    have hlt : t - T < qc.ttl := by rw [httl]; linarith
    simp [QueryCache.get, hE, hlt]

/-- Witness for C6 at a concrete cache state: ttl 300, entry inserted
at time 0, read at times 301 (miss, removed) and 299 (hit). -/
theorem C6_cache_ttl_expiry_witness :
    (({ cache := [((([] : List ℚ), 7), ⟨[], 0⟩)], max_size := 1000,
        ttl := 300, hits := 0, misses := 0 } : QueryCache).get [] 7 301).1
        = none ∧
    (({ cache := [((([] : List ℚ), 7), ⟨[], 0⟩)], max_size := 1000,
        ttl := 300, hits := 0, misses := 0 } : QueryCache).get [] 7 299).1
        = some [] := by
  have h := C6_cache_ttl_expiry
    { cache := [((([] : List ℚ), 7), ⟨[], 0⟩)], max_size := 1000,
      ttl := 300, hits := 0, misses := 0 } [] 7 [] 0 300 (by decide) rfl
  exact ⟨(h.1 301 (by norm_num)).1, h.2 299 (by norm_num)⟩

/-- C8: a successful response carrying a non-empty vector of the wrong
dimension is still returned to the caller by both single-text embed
paths (the mismatch only logs a warning). -/
theorem C8_dimension_mismatch_nonfatal (resp : ℕ → EmbedResp)
    (emb : List ℚ) (h0 : resp 0 = EmbedResp.ok emb) (hne : emb ≠ [])
    (hdim : emb.length ≠ OLLAMA_EMBED_DIMENSION) :
    generate_embedding resp = (some emb, 1) ∧
    generate_single resp = (some emb, 1) := by
  constructor
  · unfold generate_embedding genEmbedLoop
    rw [h0]
    simp [hne]
  · unfold generate_single genSingleLoop
    rw [h0]
    simp [hne]

/-- Witness for C8: a constant endpoint returning the 2-dimensional
vector `[1, 2]` (expected dimension is 768). -/
theorem C8_dimension_mismatch_nonfatal_witness :
    generate_embedding (fun _ => EmbedResp.ok [1, 2]) = (some [1, 2], 1) ∧
    generate_single (fun _ => EmbedResp.ok [1, 2]) = (some [1, 2], 1) :=
  C8_dimension_mismatch_nonfatal (fun _ => EmbedResp.ok [1, 2]) [1, 2]
    rfl (by simp) (by decide)

/-- Endpoint behaviour refuting C3: malformed JSON on the first
attempt, then a well-formed response. -/
def respC3 : ℕ → EmbedResp :=
  fun a => if a = 0 then EmbedResp.malformedJSON else EmbedResp.ok [1]

/-- Counterexample to C3: on a malformed-JSON first response,
`WhereSpace.generate_embedding` gives up after that single attempt —
it does not retry and misses the well-formed response the endpoint
would give on attempt 2 (which the batch path's `_generate_single`,
retrying the same sequence, does obtain). -/
theorem C3_counterexample :
    generate_embedding respC3 = (none, 1) ∧
    generate_single respC3 = (some [1], 2) := by
  constructor
  · decide
  · decide

/-- C3 as amended: malformed JSON is retried with backoff only by the
batch client's `_generate_single`; `WhereSpace.generate_embedding`
has a dedicated `JSONDecodeError` handler that surfaces a per-item
failure immediately after the malformed attempt, with no retry. -/
theorem C3_amended_malformed_json (resp : ℕ → EmbedResp) (emb : List ℚ)
    (h0 : resp 0 = EmbedResp.malformedJSON) :
    generate_embedding resp = (none, 1) ∧
    (resp 1 = EmbedResp.ok emb → emb ≠ [] →
      generate_single resp = (some emb, 2)) := by
  constructor
  · unfold generate_embedding genEmbedLoop
    rw [h0]
  · intro h1 hne
    simp only [generate_single, genSingleLoop, h0, h1]
    norm_num [hne]

/-- Witness for the amended C3 at the concrete endpoint `respC3W`. -/
theorem C3_amended_malformed_json_witness :
    generate_embedding (fun a => if a = 0 then EmbedResp.malformedJSON
      else EmbedResp.ok [2]) = (none, 1) ∧
    generate_single (fun a => if a = 0 then EmbedResp.malformedJSON
      else EmbedResp.ok [2]) = (some [2], 2) := by
  have h := C3_amended_malformed_json
    (fun a => if a = 0 then EmbedResp.malformedJSON else EmbedResp.ok [2])
    [2] rfl
  exact ⟨h.1, h.2 rfl (by simp)⟩

theorem writeBatch_length (vals : List (Option (List ℚ))) :
    ∀ res s, (writeBatch res s vals).length = res.length := by
  induction vals with
  | nil => intro res s; rfl
  | cons v vs ih =>
    intro res s
    simp only [writeBatch, ih, List.length_set]

theorem writeBatch_getElem?_of_lt (vals : List (Option (List ℚ))) :
    ∀ res s i, i < s → (writeBatch res s vals)[i]? = res[i]? := by
  induction vals with
  | nil => intro res s i _; rfl
  | cons v vs ih =>
    intro res s i hi
    simp only [writeBatch]
    rw [ih (res.set s v) (s + 1) i (Nat.lt_succ_of_lt hi)]
    exact List.getElem?_set_ne (Nat.ne_of_lt hi).symm

theorem writeBatch_getElem?_of_ge (vals : List (Option (List ℚ))) :
    ∀ res s i, s + vals.length ≤ i → (writeBatch res s vals)[i]? = res[i]? := by
  induction vals with
  | nil => intro res s i _; rfl
  | cons v vs ih =>
    intro res s i hi
    simp only [List.length_cons] at hi
    simp only [writeBatch]
    rw [ih (res.set s v) (s + 1) i (by omega)]
    exact List.getElem?_set_ne (by omega)

theorem writeBatch_getElem?_mem (vals : List (Option (List ℚ))) :
    ∀ res s j, j < vals.length → s + j < res.length →
      (writeBatch res s vals)[s + j]? = vals[j]? := by
  induction vals with
  | nil => intro res s j hj _; simp at hj
  | cons v vs ih =>
    intro res s j hj hlen
    simp only [writeBatch]
    match j with
    | 0 =>
      simp only [Nat.add_zero, List.getElem?_cons_zero]
      rw [writeBatch_getElem?_of_lt vs (res.set s v) (s + 1) s (Nat.lt_succ_self s)]
      exact List.getElem?_set_self (by simpa using hlen)
    | j + 1 =>
      have heq : s + (j + 1) = (s + 1) + j := by omega
      rw [heq]
      rw [ih (res.set s v) (s + 1) j (by simpa using hj)
        (by rw [List.length_set]; omega)]
      rw [List.getElem?_cons_succ]

theorem batchSlice_getElem? (texts : List String) (bs b j : ℕ)
    (hj : j < bs) :
    (batchSlice texts bs b)[j]? = texts[b * bs + j]? := by
  unfold batchSlice
  rw [List.getElem?_take_of_lt hj, List.getElem?_drop]

theorem pyStrip_length_le (s : List Char) : (pyStrip s).length ≤ s.length := by
  unfold pyStrip
  calc ((s.dropWhile isPySpace).reverse.dropWhile isPySpace).reverse.length
      = ((s.dropWhile isPySpace).reverse.dropWhile isPySpace).length :=
        List.length_reverse _
  _ ≤ (s.dropWhile isPySpace).reverse.length :=
        (List.dropWhile_sublist isPySpace).length_le
  _ = (s.dropWhile isPySpace).length := List.length_reverse _
  _ ≤ s.length := (List.dropWhile_sublist isPySpace).length_le

theorem overlapText_length_le (ov : ℕ) (hov : 0 < ov) (prev : List Char) :
    (overlapText ov prev).length ≤ ov := by
  unfold overlapText
  by_cases h : ov < prev.length
  · rw [if_pos h, if_neg (Nat.pos_iff_ne_zero.mp hov)]
    rw [List.length_drop]
    omega
  · rw [if_neg h]
    omega

theorem charSplitGo_length_le (cs ov len : ℕ) (text : List Char) :
    ∀ fuel start c, c ∈ charSplitGo cs ov len text fuel start →
      c.length ≤ cs := by
  intro fuel
  induction fuel with
  | zero => intro start c hc; simp [charSplitGo] at hc
  | succ fuel ih =>
    intro start c hc
    unfold charSplitGo at hc
    by_cases hs : start < len
    · rw [if_pos hs] at hc
      have hchunk : ((text.drop start).take (min (start + cs) len - start)).length
          ≤ cs := by
        rw [List.length_take]
        omega
      by_cases hend : len ≤ min (start + cs) len
      · rw [if_pos hend] at hc
        by_cases hkeep : pyStrip ((text.drop start).take
            (min (start + cs) len - start)) ≠ []
        · rw [if_pos hkeep] at hc
          rcases List.mem_singleton.mp hc with rfl
          exact hchunk
        · rw [if_neg hkeep] at hc
          simp at hc
      · rw [if_neg hend] at hc
        rcases List.mem_append.mp hc with hmem | hmem
        · by_cases hkeep : pyStrip ((text.drop start).take
              (min (start + cs) len - start)) ≠ []
          · rw [if_pos hkeep] at hmem
            rcases List.mem_singleton.mp hmem with rfl
            exact hchunk
          · rw [if_neg hkeep] at hmem
            simp at hmem
        · exact ih _ c hmem
    · rw [if_neg hs] at hc
      simp at hc

theorem charSplit_length_le (cs ov : ℕ) (text : List Char) :
    ∀ c ∈ charSplit cs ov text, c.length ≤ cs := by
  intro c hc
  exact charSplitGo_length_le cs ov text.length text _ 0 c hc

theorem chunkGo_length_le (cs ov : ℕ) (hov : 0 < ov)
    (recur : List Char → Option (List (List Char)))
    (hrec : ∀ t sub, recur t = some sub → ∀ c ∈ sub, c.length ≤ cs + ov) :
    ∀ (pieces result : List (List Char)) (current : List Char)
      (out : List (List Char)),
      (∀ c ∈ result, c.length ≤ cs + ov) → current.length ≤ cs + ov →
      chunkGo cs ov recur pieces result current = some out →
      ∀ c ∈ out, c.length ≤ cs + ov := by
  intro pieces
  induction pieces with
  | nil =>
    intro result current out hres hcur hout c hc
    unfold chunkGo at hout
    by_cases hkeep : pyStrip current ≠ []
    · rw [if_pos hkeep] at hout
      rcases Option.some.inj hout with rfl
      rcases List.mem_append.mp hc with hmem | hmem
      · exact hres c hmem
      · rcases List.mem_singleton.mp hmem with rfl
        exact hcur
    · rw [if_neg hkeep] at hout
      rcases Option.some.inj hout with rfl
      exact hres c hc
  | cons piece ps ih =>
    intro result current out hres hcur hout c hc
    unfold chunkGo at hout
    by_cases hfit : current.length + piece.length ≤ cs
    · rw [if_pos hfit] at hout
      refine ih result (current ++ piece) out hres ?_ hout c hc
      rw [List.length_append]
      omega
    · rw [if_neg hfit] at hout
      have hres1 : ∀ x ∈ (if pyStrip current ≠ [] then result ++ [current]
          else result), x.length ≤ cs + ov := by
        intro x hx
        by_cases hkeep : pyStrip current ≠ []
        · rw [if_pos hkeep] at hx
          rcases List.mem_append.mp hx with hmem | hmem
          · exact hres x hmem
          · rcases List.mem_singleton.mp hmem with rfl
            exact hcur
        · rw [if_neg hkeep] at hx
          exact hres x hx
      by_cases hbig : cs < piece.length
      · rw [if_pos hbig] at hout
        rcases hsub : recur piece with _ | sub
        · rw [hsub] at hout
          exact absurd hout (by simp)
        · rw [hsub] at hout
          refine ih _ [] out ?_ (by simp) hout c hc
          intro x hx
          rcases List.mem_append.mp hx with hmem | hmem
          · exact hres1 x hmem
          · exact hrec piece sub hsub x hmem
      · rw [if_neg hbig] at hout
        push_neg at hbig
        rcases hlast : (if pyStrip current ≠ [] then result ++ [current]
            else result).getLast? with _ | prev
        · rw [hlast] at hout
          exact ih _ piece out hres1 (by omega) hout c hc
        · rw [hlast] at hout
          refine ih _ (overlapText ov prev ++ piece) out hres1 ?_ hout c hc
          rw [List.length_append]
          have := overlapText_length_le ov hov prev
          omega

theorem split_recursive_length_le (cs ov : ℕ) (hov : 0 < ov) :
    ∀ (seps : List (List Char)) (text : List Char)
      (chunks : List (List Char)),
      split_recursive cs ov seps text = some chunks →
      ∀ c ∈ chunks, c.length ≤ cs + ov := by
  intro seps
  induction seps with
  | nil =>
    intro text chunks h c hc
    unfold split_recursive at h
    by_cases hshort : text.length ≤ cs
    · rw [if_pos hshort] at h
      by_cases hkeep : pyStrip text ≠ []
      · rw [if_pos hkeep] at h
        rcases Option.some.inj h with rfl
        rcases List.mem_singleton.mp hc with rfl
        omega
      · rw [if_neg hkeep] at h
        rcases Option.some.inj h with rfl
        simp at hc
    · rw [if_neg hshort] at h
      rcases Option.some.inj h with rfl
      have := charSplit_length_le cs ov text c hc
      omega
  | cons sep rest ih =>
    intro text chunks h c hc
    unfold split_recursive at h
    by_cases hshort : text.length ≤ cs
    · rw [if_pos hshort] at h
      by_cases hkeep : pyStrip text ≠ []
      · rw [if_pos hkeep] at h
        rcases Option.some.inj h with rfl
        rcases List.mem_singleton.mp hc with rfl
        omega
      · rw [if_neg hkeep] at h
        rcases Option.some.inj h with rfl
        simp at hc
    · rw [if_neg hshort] at h
      by_cases hsep : sep = []
      · rw [if_pos hsep] at h
        exact absurd h (by simp)
      · rw [if_neg hsep] at h
        exact chunkGo_length_le cs ov hov (fun t => split_recursive cs ov rest t)
          (fun t sub hsub => ih t sub hsub)
          (mkPieces sep (pySplit sep text)) [] [] chunks
          (by simp) (by simp) h c hc

/-- Counterexample to C2: with `chunk_size = 10, overlap = 5`, the
input `"aaaaaaaaa bbbbbbbb"` yields a 13-character chunk — the overlap
seed (trailing 5 characters of the previous chunk) is prepended to a
piece that may itself be up to `chunk_size` long, so chunks can exceed
`chunk_size` by up to `overlap`. -/
theorem C2_counterexample :
    chunk_text ("aaaaaaaaa bbbbbbbb".toList) 10 5
      = some ["aaaaaaaaa".toList, "aaaa bbbbbbbb".toList] ∧
    10 < ("aaaa bbbbbbbb".toList).length := by
  constructor
  · decide
  · decide

/-- C2 as amended: whenever `chunk_text` returns (it can also raise on
an unsplittable over-long token) and `overlap > 0`, every returned
chunk has length at most `chunk_size + overlap` — not `chunk_size` —
except in the degenerate fallback where no candidate chunk survives
stripping and the whole original text is returned as the single chunk.
In particular with `chunk_size=512, overlap=100` chunks may reach 612
characters. -/
theorem C2_amended_chunk_length_bound (text : List Char) (cs ov : ℕ)
    (hov : 0 < ov) (chunks : List (List Char))
    (h : chunk_text text cs ov = some chunks) :
    ∀ c ∈ chunks, c.length ≤ cs + ov ∨ chunks = [text] := by
  intro c hc
  unfold chunk_text at h
  by_cases hshort : text.length ≤ cs
  · rw [if_pos hshort] at h
    rcases Option.some.inj h with rfl
    rcases List.mem_singleton.mp hc with rfl
    left
    omega
  · rw [if_neg hshort] at h
    rcases hsp : split_recursive cs ov CHUNK_SEPARATORS text with _ | raw
    · rw [hsp] at h
      exact absurd h (by simp)
    · rw [hsp] at h
      rcases Option.some.inj h with rfl
      by_cases hemp : ((raw.map pyStrip).filter (fun x => x ≠ [])) = []
      · right
        rw [if_pos hemp]
      · left
        rw [if_neg hemp] at hc
        rcases List.mem_filter.mp hc with ⟨hmem, _⟩
        rcases List.mem_map.mp hmem with ⟨c', hc', rfl⟩
        have h1 := split_recursive_length_le cs ov hov CHUNK_SEPARATORS
          text raw hsp c' hc'
        have h2 := pyStrip_length_le c'
        omega

/-- Witness for the amended C2 at the counterexample input: the
13-character chunk satisfies the corrected bound 10 + 5. -/
theorem C2_amended_chunk_length_bound_witness :
    ("aaaa bbbbbbbb".toList).length ≤ 10 + 5 ∨
      ["aaaaaaaaa".toList, "aaaa bbbbbbbb".toList]
        = ["aaaaaaaaa bbbbbbbb".toList] :=
  C2_amended_chunk_length_bound ("aaaaaaaaa bbbbbbbb".toList) 10 5
    (by norm_num) ["aaaaaaaaa".toList, "aaaa bbbbbbbb".toList] (by decide)
    ("aaaa bbbbbbbb".toList) (by decide)

/-- Value that ends up at absolute index `i` once batch `i / bs` has
completed: `none` if that whole batch raised, else the per-text
outcome. -/
def slotVal (g : String → Option (List ℚ)) (batchFails : ℕ → Bool)
    (bs i : ℕ) (t : String) : Option (List ℚ) :=
  cond (batchFails (i / bs)) none (g t)

theorem genEmb_step (g : String → Option (List ℚ)) (batchFails : ℕ → Bool)
    (bs : ℕ) (texts : List String) (hbs : 0 < bs) (D : ℕ → Bool)
    (res : List (Option (List ℚ))) (b : ℕ)
    (hlen : res.length = texts.length)
    (hres : ∀ i, res[i]? = (texts[i]?).map
      (fun t => cond (D (i / bs)) (slotVal g batchFails bs i t) none)) :
    (if batchFails b then res
      else writeBatch res (b * bs) ((batchSlice texts bs b).map g)).length
      = texts.length ∧
    ∀ i, (if batchFails b then res
      else writeBatch res (b * bs) ((batchSlice texts bs b).map g))[i]?
      = (texts[i]?).map
        (fun t => cond (D (i / bs) || (i / bs == b))
          (slotVal g batchFails bs i t) none) := by
  by_cases hfail : batchFails b
  · rw [if_pos hfail]
    refine ⟨hlen, fun i => ?_⟩
    by_cases hib : i / bs = b
    · rw [hres i]
      rcases hti : texts[i]? with _ | t
      · rfl
      · simp only [Option.map_some']
        have hv : slotVal g batchFails bs i t = none := by
          unfold slotVal
          rw [hib, hfail]
          rfl
        rw [hv]
        rcases hD : D (i / bs) <;> simp
    · have hne : (i / bs == b) = false := by
        simp [hib]
      rw [hres i, hne]
      simp
  · rw [if_neg hfail]
    constructor
    · rw [writeBatch_length, hlen]
    · intro i
      by_cases hi : i < texts.length
      · by_cases hib : i / bs = b
        · -- index i lies inside the written window of batch b
          have hmod : bs * (i / bs) + i % bs = i := Nat.div_add_mod i bs
          have hlow : b * bs ≤ i := by
            rw [← hib]; rw [Nat.mul_comm]; omega
          have hdecomp : i = b * bs + i % bs := by
            rw [← hib]; rw [Nat.mul_comm]; omega
          have hjbs : i % bs < bs := Nat.mod_lt i hbs
          have hslice : i % bs < ((batchSlice texts bs b).map g).length := by
            rw [List.length_map]
            unfold batchSlice
            rw [List.length_take, List.length_drop]
            have : b * bs + i % bs < texts.length := by rw [← hdecomp]; exact hi
            omega
          have hw := writeBatch_getElem?_mem ((batchSlice texts bs b).map g)
            res (b * bs) (i % bs) hslice (by rw [hlen, ← hdecomp]; exact hi)
          rw [hdecomp, hw]
          rw [List.getElem?_map, batchSlice_getElem? texts bs b (i % bs) hjbs]
          rw [← hdecomp]
          rcases hti : texts[i]? with _ | t
          · rfl
          · simp only [Option.map_some']
            have hDb : (D (i / bs) || (i / bs == b)) = true := by
              simp [hib]
            have hf' : batchFails b = false := by simpa using hfail
            rw [hDb]
            unfold slotVal
            rw [hib, hf']
            rw [cond_true, cond_false]
        · -- index i is outside the written window: value unchanged
          have huntouched :
              (writeBatch res (b * bs) ((batchSlice texts bs b).map g))[i]?
                = res[i]? := by
            by_cases hlow : i < b * bs
            · exact writeBatch_getElem?_of_lt _ res (b * bs) i hlow
            · refine writeBatch_getElem?_of_ge _ res (b * bs) i ?_
              push_neg at hlow
              have hble : b ≤ i / bs := (Nat.le_div_iff_mul_le hbs).mpr hlow
              have hgt : b < i / bs := lt_of_le_of_ne hble (fun h => hib h.symm)
              have hbound : b * bs + bs ≤ i := by
                have h1 : (b + 1) * bs ≤ (i / bs) * bs :=
                  Nat.mul_le_mul_right bs hgt
                have h2 : (i / bs) * bs ≤ i := Nat.div_mul_le_self i bs
                calc b * bs + bs = (b + 1) * bs := by ring
                _ ≤ (i / bs) * bs := h1
                _ ≤ i := h2
              have hslice : ((batchSlice texts bs b).map g).length ≤ bs := by
                rw [List.length_map]
                unfold batchSlice
                rw [List.length_take]
                omega
              omega
          rw [huntouched, hres i]
          have hne : (i / bs == b) = false := by simp [hib]
          rw [hne, Bool.or_false]
      · -- i beyond the output length: both sides are none
        push_neg at hi
        have h1 : (writeBatch res (b * bs)
            ((batchSlice texts bs b).map g))[i]? = none := by
          apply List.getElem?_eq_none
          rw [writeBatch_length, hlen]
          exact hi
        have h2 : texts[i]? = none := List.getElem?_eq_none hi
        rw [h1, h2]
        rfl

theorem genEmb_fold (g : String → Option (List ℚ)) (batchFails : ℕ → Bool)
    (bs : ℕ) (texts : List String) (hbs : 0 < bs) :
    ∀ (order : List ℕ) (D : ℕ → Bool) (res : List (Option (List ℚ))),
      res.length = texts.length →
      (∀ i, res[i]? = (texts[i]?).map
        (fun t => cond (D (i / bs)) (slotVal g batchFails bs i t) none)) →
      (order.foldl (fun r b => if batchFails b then r
        else writeBatch r (b * bs) ((batchSlice texts bs b).map g))
        res).length = texts.length ∧
      ∀ i, (order.foldl (fun r b => if batchFails b then r
        else writeBatch r (b * bs) ((batchSlice texts bs b).map g))
        res)[i]? = (texts[i]?).map
          (fun t => cond (D (i / bs) || order.contains (i / bs))
            (slotVal g batchFails bs i t) none) := by
  intro order
  induction order with
  | nil =>
    intro D res hlen hres
    refine ⟨hlen, fun i => ?_⟩
    simp only [List.foldl_nil]
    rw [hres i]
    have hc : List.contains ([] : List ℕ) (i / bs) = false := rfl
    rw [hc, Bool.or_false]
  | cons b rest ih =>
    intro D res hlen hres
    have hstep := genEmb_step g batchFails bs texts hbs D res b hlen hres
    have hih := ih (fun b' => D b' || (b' == b))
      (if batchFails b then res
        else writeBatch res (b * bs) ((batchSlice texts bs b).map g))
      hstep.1 hstep.2
    refine ⟨hih.1, fun i => ?_⟩
    rw [List.foldl_cons]
    rw [hih.2 i]
    have hc : (D (i / bs) || (i / bs == b) || rest.contains (i / bs))
        = (D (i / bs) || (b :: rest).contains (i / bs)) := by
      rw [List.contains_cons, Bool.or_assoc]
    congr 1
    funext t
    rw [hc]

theorem get_miss_cache_sublist (qc : QueryCache) (emb : List ℚ) (k : ℕ)
    (now : ℚ) (h : (qc.get emb k now).1 = none) :
    ((qc.get emb k now).2).cache.Sublist qc.cache := by
  unfold QueryCache.get at h ⊢
  rcases hl : cacheLookup (mkKey emb k) qc.cache with _ | entry
  · simp only [hl]
    exact List.Sublist.refl _
  · simp only [hl] at h ⊢
    by_cases ht : now - entry.timestamp < qc.ttl
    · simp [ht] at h
    · simp only [ht, if_false]
      exact cacheErase_sublist _ _

theorem get_miss_lookup_none (qc : QueryCache) (emb : List ℚ) (k : ℕ)
    (now : ℚ) (h : (qc.get emb k now).1 = none) :
    cacheLookup (mkKey emb k) ((qc.get emb k now).2).cache = none := by
  unfold QueryCache.get at h ⊢
  rcases hl : cacheLookup (mkKey emb k) qc.cache with _ | entry
  · simp only [hl]
  · simp only [hl] at h ⊢
    by_cases ht : now - entry.timestamp < qc.ttl
    · simp [ht] at h
    · simp only [ht, if_false]
      exact cacheLookup_erase _ _

theorem get_none_of_lookup_none (qc : QueryCache) (emb : List ℚ) (k : ℕ)
    (t : ℚ) (h : cacheLookup (mkKey emb k) qc.cache = none) :
    (qc.get emb k t).1 = none := by
  unfold QueryCache.get
  simp only [h]

/-- C4: for every input list `texts`, batch embedding returns exactly
`len texts` slots where slot `i` holds the per-text outcome for
`texts[i]` (or the failure marker `none` when text `i`'s whole batch
raised), for EVERY completion order of the worker batches — each batch
writes at absolute index `batch_id * batch_size + offset`. -/
theorem C4_batch_order_preservation (g : String → Option (List ℚ))
    (batchFails : ℕ → Bool) (bs : ℕ) (order : List ℕ)
    (texts : List String) (hbs : 0 < bs)
    (hperm : order.Perm (List.range (numBatches texts.length bs))) :
    (generate_embeddings g batchFails bs order texts).length = texts.length ∧
    ∀ i, (generate_embeddings g batchFails bs order texts)[i]? =
      (texts[i]?).map (fun t => cond (batchFails (i / bs)) none (g t)) := by
  unfold generate_embeddings
  by_cases hnil : texts = []
  · subst hnil
    simp
  · rw [if_neg hnil]
    have hinit : ∀ i,
        (List.replicate texts.length (none : Option (List ℚ)))[i]?
          = (texts[i]?).map (fun t =>
            cond ((fun _ => false) (i / bs)) (slotVal g batchFails bs i t)
              none) := by
      intro i
      by_cases hi : i < texts.length
      · have h1 : (List.replicate texts.length
            (none : Option (List ℚ)))[i]? = some none := by
          rw [List.getElem?_replicate, if_pos hi]
        have h2 : texts[i]? = some texts[i] := List.getElem?_eq_getElem hi
        rw [h1, h2]
        rfl
      · push_neg at hi
        have h1 : (List.replicate texts.length
            (none : Option (List ℚ)))[i]? = none := by
          apply List.getElem?_eq_none
          simpa using hi
        have h2 : texts[i]? = none := List.getElem?_eq_none hi
        rw [h1, h2]
        rfl
    have hfold := genEmb_fold g batchFails bs texts hbs order (fun _ => false)
      (List.replicate texts.length none) (by simp) hinit
    refine ⟨hfold.1, fun i => ?_⟩
    rw [hfold.2 i]
    by_cases hi : i < texts.length
    · have hlt : i / bs < numBatches texts.length bs := by
        have h1 : bs * ((texts.length + bs - 1) / bs)
            + (texts.length + bs - 1) % bs = texts.length + bs - 1 :=
          Nat.div_add_mod _ _
        have h2 : (texts.length + bs - 1) % bs < bs := Nat.mod_lt _ hbs
        have h3 : texts.length ≤ bs * numBatches texts.length bs := by
          unfold numBatches
          omega
        refine (Nat.div_lt_iff_lt_mul hbs).mpr ?_
        calc i < texts.length := hi
        _ ≤ bs * numBatches texts.length bs := h3
        _ = numBatches texts.length bs * bs := Nat.mul_comm _ _
      have hmem : i / bs ∈ order :=
        hperm.mem_iff.mpr (List.mem_range.mpr hlt)
      have hcont : order.contains (i / bs) = true := by
        simpa using hmem
      rw [hcont]
      have h2 : texts[i]? = some texts[i] := List.getElem?_eq_getElem hi
      rw [h2]
      rfl
    · push_neg at hi
      have h2 : texts[i]? = none := List.getElem?_eq_none hi
      rw [h2]
      rfl

/-- Witness for C4: three texts, batch size 2, completion order
`[1, 0]` (second batch first), with batch 1 raising — slots 0 and 1
get their vectors, slot 2 the failure marker. -/
theorem C4_batch_order_preservation_witness :
    (generate_embeddings (fun _ => some [1]) (fun b => b == 1) 2 [1, 0]
      ["a", "b", "c"]).length = 3 ∧
    (generate_embeddings (fun _ => some [1]) (fun b => b == 1) 2 [1, 0]
      ["a", "b", "c"])[0]? = some (some [1]) ∧
    (generate_embeddings (fun _ => some [1]) (fun b => b == 1) 2 [1, 0]
      ["a", "b", "c"])[2]? = some none := by
  have h := C4_batch_order_preservation (fun _ => some [1]) (fun b => b == 1)
    2 [1, 0] ["a", "b", "c"] (by norm_num) (by decide)
  refine ⟨h.1, ?_, ?_⟩
  · have h0 := h.2 0
    simpa using h0
  · have h2 := h.2 2
    simpa using h2

/-- Cache state refuting C10: it holds one expired entry for the
probed key (results inserted at time 0, ttl 300). -/
def qcC10 : QueryCache :=
  { cache := [((([] : List ℚ), 10), ⟨[⟨"f", "txt", "p", "c", 1⟩], 0⟩)],
    max_size := 1000, ttl := 300, hits := 0, misses := 0 }

/-- Counterexample to C10: a zero-row vector search at time 301 leaves
the cache CHANGED — the miss-path read lazily deletes the expired entry
for the queried key (and bumps the miss counter), so "the query cache
is left unchanged" fails even though nothing is inserted. -/
theorem C10_counterexample :
    (search_similar_chunks_optimized qcC10 [] 10 true (Except.ok []) 301).1
      = [] ∧
    ((search_similar_chunks_optimized qcC10 [] 10 true (Except.ok [])
      301).2).cache ≠ qcC10.cache := by
  have hlt : ¬ ((301 : ℚ) < 300) := by norm_num
  constructor
  · simp [search_similar_chunks_optimized, QueryCache.get, qcC10,
      cacheLookup, mkKey, cacheErase, List.find?, hlt]
  · simp [search_similar_chunks_optimized, QueryCache.get, qcC10,
      cacheLookup, mkKey, cacheErase, List.find?, hlt]

/-- C10 as amended: when the cache-aware search misses and the store
returns zero rows (or the query raises), nothing is inserted into the
cache — the resulting cache dict is a subsequence of the prior one (the
read may only have deleted an expired entry for the probed key) and a
repeated identical query at any time is again a miss that re-queries
the store; only non-empty result lists are ever inserted. -/
theorem C10_amended_empty_not_cached (qc : QueryCache) (emb : List ℚ)
    (k : ℕ) (db : Except Unit (List SRow)) (now : ℚ)
    (hmiss : (qc.get emb k now).1 = none)
    (hdb : db = Except.ok [] ∨ db = Except.error ()) :
    (search_similar_chunks_optimized qc emb k true db now).1 = [] ∧
    ((search_similar_chunks_optimized qc emb k true db now).2).cache.Sublist
      qc.cache ∧
    ∀ t : ℚ,
      (((search_similar_chunks_optimized qc emb k true db now).2).get
        emb k t).1 = none := by
  have hpair : qc.get emb k now = (none, (qc.get emb k now).2) := by
    exact Prod.ext_iff.mpr ⟨hmiss, rfl⟩
  have hsub := get_miss_cache_sublist qc emb k now hmiss
  have hlook := get_miss_lookup_none qc emb k now hmiss
  have hsearch : search_similar_chunks_optimized qc emb k true db now
      = ([], (qc.get emb k now).2) := by
    unfold search_similar_chunks_optimized
    rw [if_pos rfl, hpair]
    rcases hdb with h | h <;> rw [h] <;> simp
  rw [hsearch]
  exact ⟨rfl, hsub, fun t => get_none_of_lookup_none _ emb k t hlook⟩

/-- Witness for the amended C10: empty cache, store returns zero rows. -/
theorem C10_amended_empty_not_cached_witness :
    (search_similar_chunks_optimized
      ⟨[], 1000, 300, 0, 0⟩ [] 10 true (Except.ok []) 0).1 = [] ∧
    ((search_similar_chunks_optimized
      ⟨[], 1000, 300, 0, 0⟩ [] 10 true (Except.ok []) 0).2).cache.Sublist [] ∧
    (((search_similar_chunks_optimized
      ⟨[], 1000, 300, 0, 0⟩ [] 10 true (Except.ok []) 0).2).get [] 10 5).1
      = none := by
  have h := C10_amended_empty_not_cached ⟨[], 1000, 300, 0, 0⟩ [] 10
    (Except.ok []) 0 (by decide) (Or.inl rfl)
  exact ⟨h.1, h.2.1, h.2.2 5⟩

/-- The 10-chunk input refuting C7: 8 chunks from file `A` with
contents `c1..c8` and 2 chunks from file `B` whose contents duplicate
`c1` and `c2`, ordered with the `A` chunks first. -/
def exC7 : List DChunk :=
  [⟨"A", "c1"⟩, ⟨"A", "c2"⟩, ⟨"A", "c3"⟩, ⟨"A", "c4"⟩, ⟨"A", "c5"⟩,
   ⟨"A", "c6"⟩, ⟨"A", "c7"⟩, ⟨"A", "c8"⟩, ⟨"B", "c1"⟩, ⟨"B", "c2"⟩]

/-- Counterexample to C7: on `exC7` (10 candidates, 8 from `A`, 2 from
`B`) the hash pass drops both `B` chunks as exact-content duplicates,
so the output contains no chunk from file `B` at all. -/
theorem C7_counterexample :
    exC7.length = 10 ∧
    (exC7.filter (fun c => c.file_name = "A")).length = 8 ∧
    (exC7.filter (fun c => c.file_name = "B")).length = 2 ∧
    ∀ c ∈ deduplicate_chunks exC7, c.file_name ≠ "B" := by
  refine ⟨rfl, rfl, rfl, ?_⟩
  decide

/-- C7 as amended: for any input of 10 candidate chunks with pairwise
distinct contents, 8 from file `fA` and 2 from file `fB`, the output of
`deduplicate_chunks` contains at least one chunk from `fB`, whatever
the input order.  (The counterexample forces the distinct-contents
hypothesis: a `B` chunk whose content duplicates an earlier chunk is
removed by the exact-duplicate hash pass before diversity is applied.) -/
theorem C7_amended_dedup_diversity (chunks : List DChunk) (fA fB : String)
    (hlen : chunks.length = 10)
    (hdist : chunks.Pairwise (fun a b => a.content ≠ b.content))
    (hA : (chunks.filter (fun c => c.file_name = fA)).length = 8)
    (hB : (chunks.filter (fun c => c.file_name = fB)).length = 2) :
    ∃ c ∈ deduplicate_chunks chunks, c.file_name = fB := by
  have hex : ∃ c ∈ chunks, c.file_name = fB := by
    rcases h : chunks.filter (fun c => c.file_name = fB) with _ | ⟨c, l⟩
    · rw [h] at hB; simp at hB
    · refine ⟨c, ?_, ?_⟩
      · exact List.mem_of_mem_filter (h ▸ List.mem_cons_self c l)
      · have := List.of_mem_filter (h ▸ List.mem_cons_self c l)
        simpa using this
  have hsome : (chunks.find? (fun c => c.file_name = fB)).isSome := by
    rcases hex with ⟨c, hc, hfc⟩
    exact List.find?_isSome.mpr ⟨c, hc, by simpa using hfc⟩
  rcases Option.isSome_iff_exists.mp hsome with ⟨c₀, hc₀⟩
  refine ⟨c₀, deduplicate_chunks_first_occ chunks hdist fB c₀ hc₀, ?_⟩
  have := List.find?_some hc₀
  simpa using this

/-- Witness input for the amended C7: contents pairwise distinct. -/
def exC7W : List DChunk :=
  [⟨"A", "c1"⟩, ⟨"A", "c2"⟩, ⟨"A", "c3"⟩, ⟨"A", "c4"⟩, ⟨"A", "c5"⟩,
   ⟨"A", "c6"⟩, ⟨"A", "c7"⟩, ⟨"A", "c8"⟩, ⟨"B", "c9"⟩, ⟨"B", "c10"⟩]

/-- Witness for the amended C7 on `exC7W`. -/
theorem C7_amended_dedup_diversity_witness :
    ∃ c ∈ deduplicate_chunks exC7W, c.file_name = "B" :=
  C7_amended_dedup_diversity exC7W "A" "B" (by decide) (by decide)
    (by decide) (by decide)

/-- Counterexample to C9: in `[⟨A, "x"⟩, ⟨B, "x"⟩]` the first (and
only) chunk sourced from file `B` is removed by the content-hash pass,
so the output misses source file `B` entirely. -/
theorem C9_counterexample :
    deduplicate_chunks [⟨"A", "x"⟩, ⟨"B", "x"⟩] = [⟨"A", "x"⟩] ∧
    ∀ c ∈ deduplicate_chunks [⟨"A", "x"⟩, ⟨"B", "x"⟩],
      c.file_name ≠ "B" := by
  refine ⟨by decide, ?_⟩
  decide

/-- C9 as amended: the output of `deduplicate_chunks` is always an
order-preserving subsequence of the input, and — provided chunk
contents are pairwise distinct, which the counterexample shows is
necessary — it contains the first input occurrence of every distinct
source `file_name` appearing in the input. -/
theorem C9_amended_dedup_subsequence (chunks : List DChunk) :
    (deduplicate_chunks chunks).Sublist chunks ∧
    (chunks.Pairwise (fun a b => a.content ≠ b.content) →
      ∀ (f : String) (c₀ : DChunk),
        chunks.find? (fun c => c.file_name = f) = some c₀ →
        c₀ ∈ deduplicate_chunks chunks) := by
  refine ⟨deduplicate_chunks_sublist chunks, ?_⟩
  intro hdist f c₀ hfind
  exact deduplicate_chunks_first_occ chunks hdist f c₀ hfind

/-- Witness for the amended C9 on a concrete two-file input. -/
theorem C9_amended_dedup_subsequence_witness :
    (deduplicate_chunks [⟨"A", "x"⟩, ⟨"B", "y"⟩]).Sublist
      [⟨"A", "x"⟩, ⟨"B", "y"⟩] ∧
    (⟨"B", "y"⟩ : DChunk) ∈ deduplicate_chunks [⟨"A", "x"⟩, ⟨"B", "y"⟩] := by
  have h := C9_amended_dedup_subsequence [⟨"A", "x"⟩, ⟨"B", "y"⟩]
  exact ⟨h.1, h.2 (by decide) "B" ⟨"B", "y"⟩ (by decide)⟩

/-- A clean document: 60 characters of text, one chunk, healthy
embeddings and database. -/
def docC1a : DocInput :=
  { path := "p1", mtime := 1, statOk := true,
    text := some (List.replicate 60 'a'),
    embeds := fun _ => some 0, dbFail := false }

/-- A document whose database insert fails. -/
def docC1b : DocInput :=
  { path := "p2", mtime := 1, statOk := true,
    text := some (List.replicate 60 'b'),
    embeds := fun _ => some 0, dbFail := true }

/-- Counterexample to C1: document `p1` is ingested successfully
(counted: `ingested = 1`), then `p2`'s database write fails and
`conn.rollback()` discards the **whole uncommitted transaction** —
including `p1`'s rows, which were awaiting the every-5-documents batch
commit.  The final store is empty: a document successfully ingested
earlier in the same run does NOT remain stored. -/
theorem C1_counterexample :
    (ingest_documents_to_pgvector [] [docC1a, docC1b]).ingested = 1 ∧
    (ingest_documents_to_pgvector [] [docC1a, docC1b]).failed = 1 ∧
    (ingest_documents_to_pgvector [] [docC1a, docC1b]).conn.committed
      = [] := by
  refine ⟨?_, ?_, ?_⟩
  · decide
  · decide
  · decide

/-- C1 as amended: rollback granularity is the batch commit, not the
document.  (a) A document whose database write fails leaves the stored
rows for its path exactly as they were before the run — no partial
chunk set is ever visible.  (b) A successfully ingested document's
fresh rows survive to the final store provided no later document in
the run triggers a rollback; the counterexample shows they are lost
otherwise, because `conn.rollback()` discards every uncommitted
document since the last batch commit.  Processing always continues
with the next document. -/
theorem C1_amended_rollback_granularity (initStore : List Row)
    (docs : List DocInput)
    (hdist : docs.Pairwise (fun a b => a.path ≠ b.path)) :
    (∀ d ∈ docs, d.dbFail = true →
      (ingest_documents_to_pgvector initStore docs).conn.committed.filter
        (fun r => r.path = d.path)
        = initStore.filter (fun r => r.path = d.path)) ∧
    (∀ (pre : List DocInput) (d : DocInput) (post : List DocInput)
        (t : List Char) (chunks : List (List Char)) (embVal : ℕ → ℕ),
      docs = pre ++ d :: post →
      d.statOk = true → d.dbFail = false → d.text = some t →
      ¬ (pyStrip t).length < 50 →
      chunk_text t CHUNK_SIZE CHUNK_OVERLAP = some chunks →
      (∀ i, d.embeds i = some (embVal i)) →
      initStore.filter (fun r => r.path = d.path) = [] →
      countDistinctPaths initStore + docs.length ≤ 50 →
      (∀ e ∈ post, e.dbFail = false ∧ ∀ t2, e.text = some t2 →
        (chunk_text t2 CHUNK_SIZE CHUNK_OVERLAP).isSome) →
      (ingest_documents_to_pgvector initStore docs).conn.committed.filter
        (fun r => r.path = d.path)
        = ingestRows d.path
            (chunks.zip ((List.range chunks.length).map embVal)) d.mtime) := by
  constructor
  · intro d hd hdb
    unfold ingest_documents_to_pgvector
    dsimp only
    by_cases hcap : 50 ≤ countDistinctPaths initStore
    · rw [if_pos hcap]
    · rw [if_neg hcap]
      have hpres := ingestLoop_path_preserved (countDistinctPaths initStore)
        d.path (initStore.filter (fun r => r.path = d.path))
        (docs.take (50 - countDistinctPaths initStore))
        ⟨⟨initStore, initStore⟩, 0, 0, 0, 0⟩ 1
        (fun e he => pairwise_path_cases hdist hd
          (List.take_subset _ _ he) hdb) rfl rfl
      exact hpres.1
  · intro pre d post t chunks embVal hdocs hstat hdb ht hlen hch hemb
      hfresh hcap hpost
    subst hdocs
    have hlen_eq : (pre ++ d :: post).length
        = pre.length + post.length + 1 := by
      simp
      omega
    have hcap2 : ¬ 50 ≤ countDistinctPaths initStore := by omega
    unfold ingest_documents_to_pgvector
    dsimp only
    rw [if_neg hcap2]
    have htake : (pre ++ d :: post).take
        (50 - countDistinctPaths initStore) = pre ++ d :: post :=
      List.take_of_length_le (by omega)
    rw [htake]
    rw [ingestLoop_append (countDistinctPaths initStore) pre (d :: post)
      ⟨⟨initStore, initStore⟩, 0, 0, 0, 0⟩ 1]
    rcases List.pairwise_append.mp hdist with ⟨hpre, hdpost, hcross⟩
    set st1 := ingestLoop (countDistinctPaths initStore)
      ⟨⟨initStore, initStore⟩, 0, 0, 0, 0⟩ 1 pre with hst1
    have h1 := ingestLoop_path_preserved (countDistinctPaths initStore)
      d.path [] pre ⟨⟨initStore, initStore⟩, 0, 0, 0, 0⟩ 1
      (fun e he => Or.inl (hcross e he d (List.mem_cons_self d post)))
      hfresh hfresh
    have hing_le := ingestLoop_ingested_le (countDistinctPaths initStore)
      pre ⟨⟨initStore, initStore⟩, 0, 0, 0, 0⟩ 1
    have hnobrk : ¬ 50 ≤ countDistinctPaths initStore + st1.ingested := by
      rw [hst1]
      simp only at hing_le
      omega
    rw [ingestLoop_cons (countDistinctPaths initStore) st1 (1 + pre.length)
      d post hnobrk]
    have hpost2 : ∀ e ∈ post, e.path ≠ d.path ∧ e.dbFail = false ∧
        (∀ t2, e.text = some t2 →
          (chunk_text t2 CHUNK_SIZE CHUNK_OVERLAP).isSome) := by
      intro e he
      exact ⟨(List.rel_of_pairwise_cons hdpost he).symm,
        (hpost e he).1, (hpost e he).2⟩
    refine ingestLoop_current_preserved (countDistinctPaths initStore)
      d.path _ post _ (1 + pre.length + 1) hpost2 ?_
    rw [wrapState_conn_current (processDoc st1 d) (1 + pre.length)]
    rw [processDoc_clean st1 d t chunks embVal hstat hdb ht hlen hch hemb
      h1.1]
    exact filter_path_ingest_self _ d.path _ d.mtime

/-- Witness for the amended C1: a two-document run (clean `p1`, then
`p2` failing at the database) — `p2`'s path has no rows in the final
store, and a clean single-document run stores exactly that document's
single chunk row. -/
theorem C1_amended_rollback_granularity_witness :
    (ingest_documents_to_pgvector [] [docC1a, docC1b]).conn.committed.filter
      (fun r => r.path = docC1b.path) = [] ∧
    (ingest_documents_to_pgvector [] [docC1a]).conn.committed.filter
      (fun r => r.path = docC1a.path)
      = ingestRows docC1a.path
          [(List.replicate 60 'a', 0)] docC1a.mtime := by
  constructor
  · have h := (C1_amended_rollback_granularity [] [docC1a, docC1b]
      (by decide)).1 docC1b (by simp) (by decide)
    simpa using h
  · have h := (C1_amended_rollback_granularity [] [docC1a]
      (by decide)).2 [] docC1a [] (List.replicate 60 'a')
      [List.replicate 60 'a'] (fun _ => 0) rfl rfl rfl rfl
      (by decide) (by decide) (fun _ => rfl) rfl (by decide)
      (by simp)
    simpa using h

/-- C5: global document ceiling.  With `N` distinct documents already
stored and a cap of 50, ingesting `M` fresh, cleanly-processable
documents (readable, long enough, embeddable, no database failure,
pairwise-distinct paths not yet in the store) stores exactly
`min M (50 - N)` documents — zero when `N ≥ 50` — with
`attempted = min M (50 - N)` (the truncated remainder is reported
skipped), and the committed store afterwards holds
`N + min M (50 - N)` distinct documents. -/
theorem C5_document_ceiling (initStore : List Row) (docs : List DocInput)
    (hclean : ∀ d ∈ docs, d.statOk = true ∧ d.dbFail = false ∧
      ∃ (t : List Char) (chunks : List (List Char)) (embVal : ℕ → ℕ),
        d.text = some t ∧ ¬ (pyStrip t).length < 50 ∧
        chunk_text t CHUNK_SIZE CHUNK_OVERLAP = some chunks ∧
        ∀ j, d.embeds j = some (embVal j))
    (hdist : docs.Pairwise (fun a b => a.path ≠ b.path))
    (hfresh : ∀ d ∈ docs,
      initStore.filter (fun r => r.path = d.path) = []) :
    (ingest_documents_to_pgvector initStore docs).ingested
      = min docs.length (50 - countDistinctPaths initStore) ∧
    (ingest_documents_to_pgvector initStore docs).attempted
      = min docs.length (50 - countDistinctPaths initStore) ∧
    countDistinctPaths
      (ingest_documents_to_pgvector initStore docs).conn.committed
      = countDistinctPaths initStore
        + min docs.length (50 - countDistinctPaths initStore) := by
  unfold ingest_documents_to_pgvector
  dsimp only
  by_cases hcap : 50 ≤ countDistinctPaths initStore
  · rw [if_pos hcap]
    have hz : 50 - countDistinctPaths initStore = 0 :=
      Nat.sub_eq_zero_of_le hcap
    rw [hz]
    dsimp only
    exact ⟨by omega, by omega, by omega⟩
  · rw [if_neg hcap]
    dsimp only
    have hsub : ∀ d ∈ docs.take (50 - countDistinctPaths initStore),
        d ∈ docs := fun d hd => List.take_subset _ _ hd
    have hlenP : (docs.take (50 - countDistinctPaths initStore)).length
        = min (50 - countDistinctPaths initStore) docs.length :=
      List.length_take _ _
    have hrun := ingestLoop_clean_run (countDistinctPaths initStore)
      (docs.take (50 - countDistinctPaths initStore))
      ⟨⟨initStore, initStore⟩, 0, 0, 0, 0⟩ 1
      (fun d hd => hclean d (hsub d hd))
      (List.Pairwise.sublist (List.take_sublist _ _) hdist)
      (fun d hd => hfresh d (hsub d hd))
      (by rw [hlenP]; dsimp only; omega)
    refine ⟨?_, ?_, ?_⟩
    · rw [hrun.1]
      rw [hlenP]
      dsimp only
      omega
    · rw [hlenP]
      omega
    · show countDistinctPaths (ingestLoop (countDistinctPaths initStore)
        ⟨⟨initStore, initStore⟩, 0, 0, 0, 0⟩ 1
        (docs.take (50 - countDistinctPaths initStore))).conn.current = _
      rw [hrun.2]
      show countDistinctPaths initStore + _ = _
      rw [hlenP]
      omega

/-- Witness for C5: one fresh clean document against an empty store —
exactly `min 1 (50 - 0) = 1` document is stored, attempted, and then
visible as the single distinct committed document. -/
theorem C5_document_ceiling_witness :
    (ingest_documents_to_pgvector [] [docC1a]).ingested = 1 ∧
    (ingest_documents_to_pgvector [] [docC1a]).attempted = 1 ∧
    countDistinctPaths
      (ingest_documents_to_pgvector [] [docC1a]).conn.committed = 1 := by
  have h := C5_document_ceiling [] [docC1a]
    (by
      intro d hd
      rw [List.mem_singleton] at hd
      subst hd
      exact ⟨rfl, rfl, List.replicate 60 'a', [List.replicate 60 'a'],
        fun _ => 0, rfl, by decide, by decide, fun _ => rfl⟩)
    (List.pairwise_singleton _ _)
    (fun d _ => rfl)
  simpa using h

end WhereSpace
